import Mathlib

/-
  Verification development for the counting and block-merging core of the
  tongrams estimation library: the front-coded block codec
  (src/include/front_coding.hpp), the hash accumulator
  (src/include/counting/ngrams_hash_block.hpp) and the index sorter.

  N-grams are tuples of word ids (modelled as List Nat), payloads are
  unsigned counters (Nat); machine-word overflow is irrelevant at the
  sizes the code handles, except for the 64-bit sentinel id which is
  modelled explicitly as 2^64 - 1.
-/

/-! ## Bit-level primitives

Modelled from the spec: bit_vector_builder / bits_iterator
(vectors/bit_vector.hpp is not under src/). append_bits(x, k) appends the
low k bits of x least-significant-bit first; get_bits(k) reads k bits back
from the current position. A bit stream is a List Bool. -/

def toBits : Nat → Nat → List Bool
  | 0, _ => []
  | k + 1, x => (x % 2 == 1) :: toBits k (x / 2)

def ofBits : List Bool → Nat
  | [] => 0
  | b :: bs => (if b then 1 else 0) + 2 * ofBits bs

/-! ## Comparator model

Modelled from the spec: the Comparator capability set (util_types.hpp is
not under src/) is determined by the traversal order of the N component
indices: begin() is the first index, next() steps to the following one,
end() the final one, advance(i, k) steps k times.  We represent a
comparator by the list seq of component indices in traversal order;
context order for order N is [N-1, ..., 0], prefix order [0, ..., N-1].
lcp(a, b) counts the leading components, in traversal order, on which a
and b agree; compare(a, b) is the sign of the lexicographic comparison in
traversal order. -/

def view (seq : List Nat) (ws : List Nat) : List Nat :=
  seq.map (fun i => ws.getD i 0)

def commonPrefixLen : List Nat → List Nat → Nat
  | a :: as, b :: bs => if a = b then commonPrefixLen as bs + 1 else 0
  | _, _ => 0

def lcpOf (seq : List Nat) (a b : List Nat) : Nat :=
  commonPrefixLen (view seq a) (view seq b)

def lexCompare : List Nat → List Nat → Int
  | [], [] => 0
  | [], _ :: _ => -1
  | _ :: _, [] => 1
  | a :: as, b :: bs => if a < b then -1 else if b < a then 1 else lexCompare as bs

def compareSeq (seq : List Nat) (a b : List Nat) : Int :=
  lexCompare (view seq a) (view seq b)

def ctxSeq (N : Nat) : List Nat := (List.range N).reverse

/-! ## util::ceil_log2

Modelled from the spec: util::ceil_log2 x = ceiling of log2 x (util.hpp is
not under src/); the spec fixes w = ceil(log2 (max_word_id + 1)),
v = ceil(log2 (max_count + 1)), l = ceil(log2 (N + 1)). Structural fuel
recursion so that concrete instances evaluate by rfl. -/

def clog2_fuel : Nat → Nat → Nat
  | 0, _ => 0
  | fuel + 1, n => if n ≤ 1 then 0 else clog2_fuel fuel ((n + 1) / 2) + 1

def ceil_log2 (n : Nat) : Nat := clog2_fuel n n

/-! ## Records and the front-coded writer (fc::writer::write_block)

A record is an n-gram (list of word ids) paired with its payload,
mirroring ngram_pointer(payload): ptr[i] are the word ids,
ptr.value(N) the payload. -/

abbrev NGRecord := List Nat × Nat

/-- fc::BLOCK_BYTES, 64 MiB by default. -/
def BLOCK_BYTES : Nat := 64 * 1024 * 1024

/-- fc::BLOCK_BITS = 8 * BLOCK_BYTES. -/
def BLOCK_BITS : Nat := 8 * BLOCK_BYTES

/-- One save() call of fc::writer::write_block: the record count written by
save_pod, the bits accumulated in m_buffer, and the byte count passed to
os.write (BLOCK_BYTES for a full block, ceil(bits/8) for the final one). -/
structure WB where
  count : Nat
  bits : List Bool
  bytes : Nat
  deriving DecidableEq

/-- The explicit_write lambda of write_block: N word ids of w bits each in
component-index order 0..N-1, then the payload in v bits. -/
def encExplicit (N w v : Nat) (r : NGRecord) : List Bool :=
  ((List.range N).map (fun i => toBits w (r.1.getD i 0))).flatten ++ toBits v r.2

/-- The suffix written for a front-coded record with lcp > 0: the components
at traversal positions lcp..N-1 (begin advanced by lcp, stepping next until
end), each in w bits, then the payload in v bits. -/
def encTail (seq : List Nat) (w v lcp : Nat) (r : NGRecord) : List Bool :=
  ((seq.drop lcp).map (fun i => toBits w (r.1.getD i 0))).flatten ++ toBits v r.2

/-- The bits write_block appends for one non-first in-block record: the lcp
field in l bits, then either a full explicit encoding (lcp = 0) or the
traversal-order suffix. -/
def encFC (seq : List Nat) (N w v l : Nat) (prev r : NGRecord) : List Bool :=
  toBits l (lcpOf seq prev.1 r.1) ++
    (if lcpOf seq prev.1 r.1 = 0 then encExplicit N w v r
     else encTail seq w v (lcpOf seq prev.1 r.1) r)

/-- The main loop of fc::writer::write_block over the records after the
first.  State mirrors the source: prev (prev_ptr), buf (m_buffer), cnt
(ngrams_in_block), encoded and written.  When the remaining bits in the
current block are fewer than maxRec = l + N*w + v, the current buffer is
saved padded to blockBytes and the record opens a new block explicitly;
otherwise the record is front-coded against prev.  On end of input the last
buffer is saved with ceil(bits/8) bytes, unless written = n. -/
def writeLoop (seq : List Nat) (N w v l maxRec blockBits blockBytes n : Nat) :
    List NGRecord → NGRecord → List Bool → Nat → Nat → Nat → List WB → List WB
  | [], _, buf, cnt, _, written, acc =>
      if written = n then acc else acc ++ [⟨cnt, buf, (buf.length + 7) / 8⟩]
  | r :: rs, prev, buf, cnt, encoded, written, acc =>
      if blockBits - buf.length < maxRec then
        writeLoop seq N w v l maxRec blockBits blockBytes n rs r
          (encExplicit N w v r) 1 (encoded + 1) encoded
          (acc ++ [⟨cnt, buf, blockBytes⟩])
      else
        writeLoop seq N w v l maxRec blockBits blockBytes n rs r
          (buf ++ encFC seq N w v l prev r) (cnt + 1) (encoded + 1) written acc

/-- fc::writer::write_block.  Computes w, v from the run statistics and l
from the order, writes the first record explicitly (the C++ dereferences
*begin unconditionally, so the empty run is undefined behaviour, modelled
as none), then runs the main loop.  blockBytes is fc::BLOCK_BYTES, kept as
a parameter so that concrete instances are computable. -/
def write_block (seq : List Nat) (N blockBytes maxWordId maxCount n : Nat)
    (L : List NGRecord) : Option (List WB) :=
  match L with
  | [] => none
  | r :: rs =>
      let w := ceil_log2 (maxWordId + 1)
      let v := ceil_log2 (maxCount + 1)
      let l := ceil_log2 (N + 1)
      some (writeLoop seq N w v l (l + N * w + v) (8 * blockBytes) blockBytes n
        rs r (encExplicit N w v r) 1 0 0 [])

/-! ## Reference block encodings used to state the writer's invariants -/

/-- The bits of a block holding the chain prev, r1, r2, ... : each ri is
front-coded against its predecessor. -/
def encFCs (seq : List Nat) (N w v l : Nat) : NGRecord → List NGRecord → List Bool
  | _, [] => []
  | prev, r :: rs => encFC seq N w v l prev r ++ encFCs seq N w v l r rs

/-- The bits of one whole block: first record explicit, the rest
front-coded in sequence. -/
def encBlockR (seq : List Nat) (N w v l : Nat) : List NGRecord → List Bool
  | [] => []
  | r :: rs => encExplicit N w v r ++ encFCs seq N w v l r rs

/-- The blocks write_block emits for a partition of the run into
per-block record segments: every block but the last is written with
blockBytes bytes, the last with ceil(bits/8). -/
def mkBlocks (seq : List Nat) (N w v l blockBytes : Nat) :
    List (List NGRecord) → List WB
  | [] => []
  | [p] =>
      [⟨p.length, encBlockR seq N w v l p,
        ((encBlockR seq N w v l p).length + 7) / 8⟩]
  | p :: q :: t =>
      ⟨p.length, encBlockR seq N w v l p, blockBytes⟩ ::
        mkBlocks seq N w v l blockBytes (q :: t)

/-! ## The front-coded reader (fc::ngrams_block::fc_iterator) -/

/-- decode() positioning the write cursor: store the words ws at the
component indices ps (the traversal positions from lcp on), keeping the
other slots of the back buffer. -/
def setSlots (back : List Nat) (ps ws : List Nat) : List Nat :=
  (List.zip ps ws).foldl (fun b pw => b.set pw.1 pw.2) back

/-- Read k word ids of w bits each. -/
def decodeWords (w : Nat) : Nat → List Bool → List Nat × List Bool
  | 0, s => ([], s)
  | k + 1, s =>
      let x := ofBits (s.take w)
      let p := decodeWords w k (s.drop w)
      (x :: p.1, p.2)

/-- decode_explicit(): N word ids into the back buffer from component 0,
then the payload (decode_value). -/
def decodeExplicit (N w v : Nat) (s : List Bool) : NGRecord × List Bool :=
  let p := decodeWords w N s
  ((p.1, ofBits (p.2.take v)), p.2.drop v)

/-- decode(): one l-bit lcp; if zero an explicit record, otherwise the
N - lcp word ids in traversal order overwrite the back buffer from
traversal position lcp, slots before it retaining the previous record's
components; finally the payload. -/
def decodeStep (seq : List Nat) (N w v l : Nat) (back : List Nat)
    (s : List Bool) : NGRecord × List Bool :=
  let lcp := ofBits (s.take l)
  let s1 := s.drop l
  if lcp = 0 then decodeExplicit N w v s1
  else
    let p := decodeWords w (N - lcp) s1
    let ws := setSlots back (seq.drop lcp) p.1
    ((ws, ofBits (p.2.take v)), p.2.drop v)

/-- The advancement loop of fc_iterator: k further records, threading the
back buffer. -/
def decodeLoop (seq : List Nat) (N w v l : Nat) :
    Nat → List Nat → List Bool → List NGRecord × List Bool
  | 0, _, s => ([], s)
  | k + 1, back, s =>
      let p := decodeStep seq N w v l back s
      let q := decodeLoop seq N w v l k p.1.1 p.2
      (p.1 :: q.1, q.2)

/-- Iterating one block of cnt records: the constructor decodes the first
record explicitly (when cnt > 0), each operator++ decodes one more. -/
def decodeRecords (seq : List Nat) (N w v l cnt : Nat) (s : List Bool) :
    List NGRecord × List Bool :=
  match cnt with
  | 0 => ([], s)
  | k + 1 =>
      let p := decodeExplicit N w v s
      let q := decodeLoop seq N w v l k p.1.1 p.2
      (p.1 :: q.1, q.2)

/-- Zero padding out to m bits, as the full-block save and the byte
granularity of os.write leave trailing zero bits. -/
def padTo (m : Nat) (s : List Bool) : List Bool :=
  s.take m ++ List.replicate (m - s.length) false

/-- Decoding every emitted block with fc_iterator (each block read back
from its bytes on disk) and concatenating, as the block-file reader does. -/
def decodeRun (seq : List Nat) (N w v l : Nat) (bs : List WB) : List NGRecord :=
  (bs.map (fun b =>
    (decodeRecords seq N w v l b.count (padTo (8 * b.bytes) b.bits)).1)).flatten

/-! ## Byte-level stream layout of write_block's output -/

/-- k bytes little-endian, as essentials::save_pod writes integers. -/
def bytesLE : Nat → Nat → List Nat
  | 0, _ => []
  | k + 1, x => x % 256 :: bytesLE k (x / 256)

/-- k bytes from a bit buffer, 8 bits per byte LSB first, as os.write
emits m_buffer.bits().data(). -/
def bytesFromBits : Nat → List Bool → List Nat
  | 0, _ => []
  | k + 1, s => ofBits (s.take 8) :: bytesFromBits k (s.drop 8)

/-- The bytes one save() call writes: the 8-byte record count, then
exactly b.bytes bytes of bit-packed payload. -/
def saveBytes (b : WB) : List Nat :=
  bytesLE 8 b.count ++ bytesFromBits b.bytes (padTo (8 * b.bytes) b.bits)

/-- The byte stream write_block produces: w and v once (save_pod at the
top of write_block), then each save() block. -/
def streamBytes (w v : Nat) (bs : List WB) : List Nat :=
  w % 256 :: v % 256 :: (bs.map saveBytes).flatten

/-- The layout the spec claims: every block begins with its own
self-describing header w, v and record count. -/
def streamBytesClaimed (w v : Nat) (bs : List WB) : List Nat :=
  (bs.map (fun b => w % 256 :: v % 256 :: saveBytes b)).flatten

/-! ## The hash accumulator (ngrams_hash_block) -/

/-- ngrams_hash_block::invalid_ngram_id = ngram_id(-1), the all-ones
64-bit id. -/
def invalid_ngram_id : Nat := 2 ^ 64 - 1

/-- The accumulator state: the bucket table m_data of ngram ids (slots
holding invalid_ngram_id are empty) and the record store m_block, holding
for each assigned id its n-gram and payload; m_size equals the record
count. -/
structure HashBlock where
  data : List Nat
  records : List NGRecord
  deriving DecidableEq

/-- The probe walk of find_or_insert.  Modelled from the spec: the default
hash_utils::linear_prober (hash_utils.hpp is not under src/) starts at
hint mod buckets and advances by one, wrapping around.  Occupied slots are
compared with the key (equal_to over the N word ids); reaching an empty
slot inserts the next monotonic id with payload 1; advancing back to the
starting bucket fails with the sentinel.  Fuel makes the recursion
structural; the callers pass fuel = buckets, which the wrap check never
exceeds. -/
def probeLoop (st : HashBlock) (key : List Nat) (start : Nat) :
    Nat → Nat → HashBlock × Nat × Bool
  | _, 0 => (st, invalid_ngram_id, false)
  | it, fuel + 1 =>
      if st.data.getD it invalid_ngram_id ≠ invalid_ngram_id then
        if (st.records.getD (st.data.getD it invalid_ngram_id) ([], 0)).1 = key then
          (st, st.data.getD it invalid_ngram_id, true)
        else
          if (it + 1) % st.data.length = start then (st, invalid_ngram_id, false)
          else probeLoop st key start ((it + 1) % st.data.length) fuel
      else
        (⟨st.data.set it st.records.length, st.records ++ [(key, 1)]⟩,
          st.records.length, false)

/-- ngrams_hash_block::find_or_insert(key, hint, at): returns the updated
state, the ngram id written to at, and the boolean return value. -/
def find_or_insert (st : HashBlock) (key : List Nat) (hint : Nat) :
    HashBlock × Nat × Bool :=
  probeLoop st key (hint % st.data.length) (hint % st.data.length)
    st.data.length

/-- A driver pushing a sequence of n-grams through find_or_insert, using
the hash h for the prober hint of each key. -/
def processAll (h : List Nat → Nat) (st : HashBlock) (ks : List (List Nat)) :
    HashBlock :=
  ks.foldl (fun s k => (find_or_insert s k (h k)).1) st

/-- The keys of ks not yet in seen, in first-occurrence order: the
distinct n-grams in first-insertion order. -/
def newDistinct (seen : List (List Nat)) : List (List Nat) → List (List Nat)
  | [] => []
  | k :: ks =>
      if k ∈ seen then newDistinct seen ks
      else k :: newDistinct (k :: seen) ks

/-- The record at id is reachable: walking the linear probe chain from
h(key) mod buckets, some step t < buckets lands on a bucket holding id,
every earlier step on an occupied bucket. -/
def Reachable (h : List Nat → Nat) (st : HashBlock) (id : Nat) : Prop :=
  ∃ t, t < st.data.length ∧
    st.data.getD ((h (st.records.getD id ([], 0)).1 % st.data.length + t) %
      st.data.length) invalid_ngram_id = id ∧
    ∀ j, j < t →
      st.data.getD ((h (st.records.getD id ([], 0)).1 % st.data.length + j) %
        st.data.length) invalid_ngram_id ≠ invalid_ngram_id

/-- The accumulator invariant maintained by find_or_insert under a fixed
hash h: a nonempty bucket table smaller than the sentinel, valid stored
ids, occupied-bucket count equal to the record count, every stored record
reachable from its own hash, and pairwise distinct stored n-grams. -/
def AccInv (h : List Nat → Nat) (st : HashBlock) : Prop :=
  0 < st.data.length ∧
  st.data.length < invalid_ngram_id ∧
  (∀ e ∈ st.data, e = invalid_ngram_id ∨ e < st.records.length) ∧
  st.data.countP (fun e => decide (e ≠ invalid_ngram_id)) = st.records.length ∧
  (∀ id, id < st.records.length → Reachable h st id) ∧
  List.Pairwise (fun a b => a.1 ≠ b.1) st.records

/-! ## The sorter (ngrams_hash_block::sort, indirect strategy)

The sort builds the identity permutation over [0, size) in m_index and
sorts it with the comparator invoked through the index.  Modelled from the
spec: __gnu_parallel::sort / std::sort (external library) produce a
sorted permutation of the index array; an insertion sort realises that
contract. -/

def insertLe (le : Nat → Nat → Bool) (x : Nat) : List Nat → List Nat
  | [] => [x]
  | y :: ys => if le x y then x :: y :: ys else y :: insertLe le x ys

def sortLe (le : Nat → Nat → Bool) (l : List Nat) : List Nat :=
  l.foldr (insertLe le) []

/-- ngrams_hash_block::sort: m_index = [0..size) sorted by the strict
comparator through m_block.access; an index i precedes j when the
comparator does not order record j strictly before record i. -/
def sortIndex (records : List NGRecord) (cmp : NGRecord → NGRecord → Int) :
    List Nat :=
  sortLe
    (fun i j => decide (0 ≤ cmp (records.getD j ([], 0)) (records.getD i ([], 0))))
    (List.range records.length)

/-- Iterating the accumulator from begin() to end() after sort: the
enumerator yields m_block.pointer(m_index[pos]) for pos = 0..size-1. -/
def enumerate (records : List NGRecord) (idx : List Nat) : List NGRecord :=
  idx.map (fun i => records.getD i ([], 0))

/-! ### Basic lemmas on bits -/

theorem length_toBits (k x : Nat) : (toBits k x).length = k := by
  induction k generalizing x with
  | zero => rfl
  | succ k ih => simp [toBits, ih]

theorem ofBits_toBits (k x : Nat) : ofBits (toBits k x) = x % 2 ^ k := by
  induction k generalizing x with
  | zero => simp [toBits, ofBits, Nat.mod_one]
  | succ k ih =>
    simp only [toBits, ofBits, ih]
    rw [Nat.pow_succ', Nat.mod_mul]
    rcases Nat.mod_two_eq_zero_or_one x with h | h <;> simp [h]

theorem take_toBits_append (k x : Nat) (rest : List Bool) :
    (toBits k x ++ rest).take k = toBits k x := by
  have h := List.take_left (toBits k x) rest
  rwa [length_toBits] at h

theorem drop_toBits_append (k x : Nat) (rest : List Bool) :
    (toBits k x ++ rest).drop k = rest := by
  have h := List.drop_left (toBits k x) rest
  rwa [length_toBits] at h

/-! ### ceil_log2 bounds -/

theorem le_pow_clog2_fuel (fuel : Nat) :
    ∀ n, n ≤ fuel → n ≤ 2 ^ clog2_fuel fuel n := by
  induction fuel with
  | zero => intro n hn; interval_cases n; simp [clog2_fuel]
  | succ fuel ih =>
    intro n hn
    by_cases h1 : n ≤ 1
    · simp only [clog2_fuel, if_pos h1]; omega
    · have hm : (n + 1) / 2 ≤ fuel := by omega
      have hrec := ih ((n + 1) / 2) hm
      simp only [clog2_fuel, if_neg h1]
      calc n ≤ 2 * ((n + 1) / 2) := by omega
        _ ≤ 2 * 2 ^ clog2_fuel fuel ((n + 1) / 2) := by omega
        _ = 2 ^ (clog2_fuel fuel ((n + 1) / 2) + 1) := by ring

theorem le_pow_ceil_log2 (n : Nat) : n ≤ 2 ^ ceil_log2 n :=
  le_pow_clog2_fuel n n (Nat.le_refl n)

theorem lt_two_pow_ceil (x m : Nat) (h : x ≤ m) :
    x < 2 ^ ceil_log2 (m + 1) :=
  Nat.lt_of_lt_of_le (Nat.lt_succ_of_le h) (le_pow_ceil_log2 (m + 1))

/-! ### Comparator lemmas -/

theorem length_view (seq ws : List Nat) : (view seq ws).length = seq.length :=
  List.length_map _ _

theorem commonPrefixLen_agree (a b : List Nat) :
    ∀ j, j < commonPrefixLen a b → a.getD j 0 = b.getD j 0 := by
  induction a generalizing b with
  | nil => intro j hj; simp [commonPrefixLen] at hj
  | cons x as ih =>
    intro j hj
    cases b with
    | nil => simp [commonPrefixLen] at hj
    | cons y bs =>
      by_cases hxy : x = y
      · cases j with
        | zero => simpa using hxy
        | succ j =>
          simp only [commonPrefixLen, if_pos hxy] at hj
          simpa using ih bs j (by omega)
      · simp [commonPrefixLen, hxy] at hj

theorem commonPrefixLen_lt_of_ne (a b : List Nat)
    (hlen : a.length = b.length) (hne : a ≠ b) :
    commonPrefixLen a b < a.length := by
  induction a generalizing b with
  | nil =>
    exfalso
    exact hne (by cases b <;> simp_all)
  | cons x as ih =>
    cases b with
    | nil => simp at hlen
    | cons y bs =>
      by_cases hxy : x = y
      · subst hxy
        have : as ≠ bs := fun h => hne (by rw [h])
        have := ih bs (by simpa using hlen) this
        simp only [commonPrefixLen, if_true, eq_self_iff_true, List.length_cons]
        omega
      · simp [commonPrefixLen, hxy]

theorem lexCompare_eq_zero_iff (a b : List Nat) :
    lexCompare a b = 0 ↔ a = b := by
  induction a generalizing b with
  | nil => cases b <;> simp [lexCompare]
  | cons x as ih =>
    cases b with
    | nil => simp [lexCompare]
    | cons y bs =>
      by_cases h1 : x < y
      · simp [lexCompare, h1]
        omega
      · by_cases h2 : y < x
        · simp [lexCompare, h1, h2]
          omega
        · have hxy : x = y := by omega
          simp [lexCompare, h1, h2, hxy, ih]

theorem lcpOf_lt_of_compare_ne (seq a b : List Nat)
    (h : compareSeq seq a b ≠ 0) : lcpOf seq a b < seq.length := by
  have hne : view seq a ≠ view seq b := by
    intro he
    exact h (by simp [compareSeq, he, lexCompare_eq_zero_iff])
  have := commonPrefixLen_lt_of_ne (view seq a) (view seq b)
    (by rw [length_view, length_view]) hne
  simpa [lcpOf, length_view] using this

/-! ### Decoding an explicit record -/

theorem getD_range_map {α : Type} (l : List α) (d : α) :
    (List.range l.length).map (fun i => l.getD i d) = l := by
  induction l with
  | nil => rfl
  | cons a t ih =>
    rw [List.length_cons, List.range_succ_eq_map, List.map_cons, List.map_map]
    have h1 : (a :: t).getD 0 d = a := rfl
    have h2 : ((fun i => (a :: t).getD i d) ∘ Nat.succ) = fun i => t.getD i d := by
      funext i
      rfl
    rw [h1, h2, ih]

theorem decodeWords_spec (w : Nat) (xs : List Nat) (rest : List Bool)
    (hb : ∀ x ∈ xs, x < 2 ^ w) :
    decodeWords w xs.length ((xs.map (toBits w)).flatten ++ rest) = (xs, rest) := by
  induction xs generalizing rest with
  | nil => simp [decodeWords]
  | cons x xs ih =>
    have hx : x < 2 ^ w := hb x (by simp)
    have hxs : ∀ y ∈ xs, y < 2 ^ w := fun y hy => hb y (by simp [hy])
    simp only [List.length_cons, List.map_cons, List.flatten_cons,
      List.append_assoc, decodeWords]
    rw [take_toBits_append, drop_toBits_append, ofBits_toBits,
      Nat.mod_eq_of_lt hx, ih _ hxs]

theorem encExplicit_eq (N w v : Nat) (r : NGRecord) (hr : r.1.length = N) :
    encExplicit N w v r = (r.1.map (toBits w)).flatten ++ toBits v r.2 := by
  rw [encExplicit, ← hr]
  have h : (List.range r.1.length).map (fun i => toBits w (r.1.getD i 0))
      = ((List.range r.1.length).map (fun i => r.1.getD i 0)).map (toBits w) := by
    rw [List.map_map]
    rfl
  rw [h, getD_range_map]

theorem length_encExplicit (N w v : Nat) (r : NGRecord) :
    (encExplicit N w v r).length = N * w + v := by
  simp only [encExplicit, List.length_append, List.length_flatten,
    List.map_map, length_toBits]
  have : (List.range N).map (List.length ∘ fun i => toBits w (r.1.getD i 0))
      = (List.range N).map (fun _ => w) := by
    refine List.map_congr_left ?_
    intro i _
    simp [length_toBits]
  rw [this]
  simp [List.map_const', Nat.mul_comm]

theorem decodeExplicit_spec (N w v : Nat) (r : NGRecord) (rest : List Bool)
    (hr : r.1.length = N) (hwb : ∀ x ∈ r.1, x < 2 ^ w) (hvb : r.2 < 2 ^ v) :
    decodeExplicit N w v (encExplicit N w v r ++ rest) = (r, rest) := by
  rw [encExplicit_eq N w v r hr, decodeExplicit]
  rw [List.append_assoc, ← hr, decodeWords_spec w r.1 (toBits v r.2 ++ rest) hwb]
  simp only [take_toBits_append, drop_toBits_append, ofBits_toBits,
    Nat.mod_eq_of_lt hvb]

/-! ### Reconstructing a front-coded record in the back buffer -/

theorem getD_set_self (l : List Nat) (i a d : Nat) (h : i < l.length) :
    (l.set i a).getD i d = a := by
  have h2 : i < (l.set i a).length := by simpa using h
  rw [List.getD_eq_getElem _ _ h2]
  exact List.getElem_set_self _

theorem getD_set_ne (l : List Nat) (i j a d : Nat) (h : i ≠ j) :
    (l.set i a).getD j d = l.getD j d := by
  simp [List.getD, List.getElem?_set_ne h]

theorem length_setSlots (back ps ws : List Nat) :
    (setSlots back ps ws).length = back.length := by
  induction ps generalizing ws back with
  | nil => rfl
  | cons p ps ih =>
    cases ws with
    | nil => rfl
    | cons x ws =>
      have := ih (back.set p x) ws
      simpa [setSlots] using this

theorem getD_setSlots_not_mem (back ps ws : List Nat) (j d : Nat)
    (hj : j ∉ ps) : (setSlots back ps ws).getD j d = back.getD j d := by
  induction ps generalizing ws back with
  | nil => rfl
  | cons p ps ih =>
    cases ws with
    | nil => rfl
    | cons x ws =>
      have hjp : j ∉ ps := fun h => hj (List.mem_cons_of_mem _ h)
      have hpj : p ≠ j := fun h => hj (h ▸ List.mem_cons_self _ _)
      have h1 := ih (back.set p x) ws hjp
      have h2 := getD_set_ne back p j x d hpj
      simp only [setSlots, List.zip_cons_cons, List.foldl_cons] at h1 ⊢
      rw [h1, h2]

theorem getD_setSlots_map (back : List Nat) (ps : List Nat) (f : Nat → Nat)
    (j d : Nat) (hnd : ps.Nodup) (hlt : ∀ p ∈ ps, p < back.length)
    (hj : j ∈ ps) :
    (setSlots back ps (ps.map f)).getD j d = f j := by
  induction ps generalizing back with
  | nil => cases hj
  | cons p ps ih =>
    rcases List.mem_cons.1 hj with hjp | hjs
    · subst hjp
      have hnp : j ∉ ps := (List.nodup_cons.1 hnd).1
      have h1 := getD_setSlots_not_mem (back.set j (f j)) ps (ps.map f) j d hnp
      have h2 := getD_set_self back j (f j) d (hlt j (List.mem_cons_self _ _))
      simp only [setSlots, List.map_cons, List.zip_cons_cons, List.foldl_cons] at h1 ⊢
      rw [h1, h2]
    · have h1 := ih (back.set p (f p)) (List.nodup_cons.1 hnd).2
        (fun q hq => by
          have := hlt q (List.mem_cons_of_mem _ hq)
          simpa using this) hjs
      simp only [setSlots, List.map_cons, List.zip_cons_cons, List.foldl_cons] at h1 ⊢
      exact h1

theorem view_getD (seq x : List Nat) (j : Nat) (h : j < seq.length) :
    (view seq x).getD j 0 = x.getD (seq.getD j 0) 0 := by
  have h2 : j < (view seq x).length := by rw [length_view]; exact h
  rw [List.getD_eq_getElem _ _ h2, List.getD_eq_getElem _ _ h]
  simp [view]

theorem setSlots_reconstruct (seq : List Nat) (N k : Nat) (prev r : List Nat)
    (hseq : seq.Perm (List.range N)) (hprev : prev.length = N)
    (hr : r.length = N)
    (hagree : ∀ i ∈ seq.take k, prev.getD i 0 = r.getD i 0) :
    setSlots prev (seq.drop k) ((seq.drop k).map (fun i => r.getD i 0)) = r := by
  have hnd : seq.Nodup := hseq.nodup_iff.2 (List.nodup_range N)
  have hmem : ∀ i, i ∈ seq ↔ i < N := by
    intro i
    rw [hseq.mem_iff, List.mem_range]
  have hlen : (setSlots prev (seq.drop k)
      ((seq.drop k).map (fun i => r.getD i 0))).length = r.length := by
    rw [length_setSlots, hprev, hr]
  apply List.ext_getElem hlen
  intro j h1 h2
  have hjN : j < N := by rw [hr] at h2; exact h2
  have hjseq : j ∈ seq := (hmem j).2 hjN
  have hjlt : j < (setSlots prev (seq.drop k)
      ((seq.drop k).map (fun i => r.getD i 0))).length := h1
  rw [← List.getD_eq_getElem _ 0 h1, ← List.getD_eq_getElem _ 0 h2]
  by_cases hd : j ∈ seq.drop k
  · rw [getD_setSlots_map prev (seq.drop k) (fun i => r.getD i 0) j 0
      (hnd.sublist (List.drop_sublist k seq))
      (fun p hp => by
        rw [hprev]
        exact (hmem p).1 (List.mem_of_mem_drop hp)) hd]
  · have hjtake : j ∈ seq.take k := by
      have := (List.take_append_drop k seq) ▸ hjseq
      rcases List.mem_append.1 this with h | h
      · exact h
      · exact absurd h hd
    rw [getD_setSlots_not_mem _ _ _ _ _ hd]
    exact hagree j hjtake

/-! ### Decoding one front-coded record, one chain, one block -/

theorem mem_take_imp (l : List Nat) :
    ∀ k i, i ∈ l.take k → ∃ j, j < k ∧ j < l.length ∧ l.getD j 0 = i := by
  induction l with
  | nil => intro k i hi; simp at hi
  | cons x t ih =>
    intro k i hi
    cases k with
    | zero => simp at hi
    | succ k =>
      rcases List.mem_cons.1 hi with h | h
      · exact ⟨0, by omega, by simp, by simp [h]⟩
      · obtain ⟨j, hjk, hjl, hji⟩ := ih k i h
        exact ⟨j + 1, by omega, by simp; omega, by simpa using hji⟩

theorem lcp_agree_take (seq a b : List Nat) :
    ∀ i ∈ seq.take (lcpOf seq a b), a.getD i 0 = b.getD i 0 := by
  intro i hi
  obtain ⟨j, hjk, hjs, hji⟩ := mem_take_imp seq (lcpOf seq a b) i hi
  have hagree := commonPrefixLen_agree (view seq a) (view seq b) j hjk
  rw [view_getD seq a j hjs, view_getD seq b j hjs, hji] at hagree
  exact hagree

theorem decodeStep_spec (seq : List Nat) (N w v l : Nat) (prev r : NGRecord)
    (rest : List Bool) (hseq : seq.Perm (List.range N))
    (hprev : prev.1.length = N) (hr : r.1.length = N)
    (hwb : ∀ x ∈ r.1, x < 2 ^ w) (hvb : r.2 < 2 ^ v) (hN : N < 2 ^ l)
    (hcmp : compareSeq seq prev.1 r.1 ≠ 0) :
    decodeStep seq N w v l prev.1 (encFC seq N w v l prev r ++ rest) =
      (r, rest) := by
  have hseqlen : seq.length = N := by rw [hseq.length_eq, List.length_range]
  have hmemN : ∀ i, i ∈ seq → i < N := fun i hi =>
    List.mem_range.1 (hseq.mem_iff.1 hi)
  have hlcp : lcpOf seq prev.1 r.1 < N :=
    hseqlen ▸ lcpOf_lt_of_compare_ne seq prev.1 r.1 hcmp
  have hlcp2 : lcpOf seq prev.1 r.1 < 2 ^ l := lt_trans hlcp hN
  by_cases h0 : lcpOf seq prev.1 r.1 = 0
  · have hs : encFC seq N w v l prev r ++ rest
        = toBits l 0 ++ (encExplicit N w v r ++ rest) := by
      rw [encFC, if_pos h0, h0, List.append_assoc]
    rw [hs]
    simp only [decodeStep, take_toBits_append, drop_toBits_append,
      ofBits_toBits, Nat.zero_mod, if_pos rfl]
    exact decodeExplicit_spec N w v r rest hr hwb hvb
  · have hs : encFC seq N w v l prev r ++ rest
        = toBits l (lcpOf seq prev.1 r.1) ++
          (encTail seq w v (lcpOf seq prev.1 r.1) r ++ rest) := by
      rw [encFC, if_neg h0, List.append_assoc]
    rw [hs]
    simp only [decodeStep, take_toBits_append, drop_toBits_append,
      ofBits_toBits, Nat.mod_eq_of_lt hlcp2, if_neg h0]
    have hxs : encTail seq w v (lcpOf seq prev.1 r.1) r ++ rest
        = (((seq.drop (lcpOf seq prev.1 r.1)).map
              (fun i => r.1.getD i 0)).map (toBits w)).flatten
            ++ (toBits v r.2 ++ rest) := by
      rw [encTail, List.append_assoc, List.map_map]
      rfl
    rw [hxs]
    have hlenxs : N - lcpOf seq prev.1 r.1
        = ((seq.drop (lcpOf seq prev.1 r.1)).map (fun i => r.1.getD i 0)).length := by
      simp [hseqlen]
    have hbounds : ∀ x ∈ (seq.drop (lcpOf seq prev.1 r.1)).map
        (fun i => r.1.getD i 0), x < 2 ^ w := by
      intro x hx
      obtain ⟨i, hi, rfl⟩ := List.mem_map.1 hx
      have hiN : i < r.1.length := hr ▸ hmemN i (List.mem_of_mem_drop hi)
      rw [List.getD_eq_getElem _ _ hiN]
      exact hwb _ (List.getElem_mem hiN)
    rw [hlenxs, decodeWords_spec w _ _ hbounds]
    rw [setSlots_reconstruct seq N (lcpOf seq prev.1 r.1) prev.1 r.1 hseq
      hprev hr (lcp_agree_take seq prev.1 r.1)]
    simp only [take_toBits_append, drop_toBits_append, ofBits_toBits,
      Nat.mod_eq_of_lt hvb]

theorem decodeLoop_spec (seq : List Nat) (N w v l : Nat)
    (hseq : seq.Perm (List.range N)) (hN : N < 2 ^ l) :
    ∀ (rs : List NGRecord) (prev : NGRecord) (rest : List Bool),
      List.Chain (fun a b => compareSeq seq a.1 b.1 < 0) prev rs →
      (∀ r ∈ rs, r.1.length = N ∧ (∀ x ∈ r.1, x < 2 ^ w) ∧ r.2 < 2 ^ v) →
      prev.1.length = N →
      decodeLoop seq N w v l rs.length prev.1
        (encFCs seq N w v l prev rs ++ rest) = (rs, rest) := by
  intro rs
  induction rs with
  | nil =>
    intro prev rest _ _ _
    simp [decodeLoop, encFCs]
  | cons r rs ih =>
    intro prev rest hchain hb hprev
    rw [List.chain_cons] at hchain
    obtain ⟨hrlen, hrw, hrv⟩ := hb r (List.mem_cons_self _ _)
    have hcmp : compareSeq seq prev.1 r.1 ≠ 0 := ne_of_lt hchain.1
    simp only [List.length_cons, encFCs, List.append_assoc, decodeLoop]
    rw [decodeStep_spec seq N w v l prev r _ hseq hprev hrlen hrw hrv hN hcmp]
    rw [ih r rest hchain.2 (fun q hq => hb q (List.mem_cons_of_mem _ hq)) hrlen]

theorem decodeRecords_spec (seq : List Nat) (N w v l : Nat)
    (hseq : seq.Perm (List.range N)) (hN : N < 2 ^ l)
    (p : List NGRecord) (rest : List Bool) (hne : p ≠ [])
    (hchain : List.Chain' (fun a b => compareSeq seq a.1 b.1 < 0) p)
    (hb : ∀ r ∈ p, r.1.length = N ∧ (∀ x ∈ r.1, x < 2 ^ w) ∧ r.2 < 2 ^ v) :
    decodeRecords seq N w v l p.length (encBlockR seq N w v l p ++ rest) =
      (p, rest) := by
  match p with
  | [] => exact absurd rfl hne
  | r0 :: tl =>
    obtain ⟨hrlen, hrw, hrv⟩ := hb r0 (List.mem_cons_self _ _)
    have hchain2 : List.Chain (fun a b => compareSeq seq a.1 b.1 < 0) r0 tl :=
      hchain
    simp only [List.length_cons, encBlockR, List.append_assoc, decodeRecords]
    rw [decodeExplicit_spec N w v r0 _ hrlen hrw hrv]
    rw [decodeLoop_spec seq N w v l hseq hN tl r0 rest hchain2
      (fun q hq => hb q (List.mem_cons_of_mem _ hq)) hrlen]

/-! ### Sizes of encoded records and block algebra -/

theorem length_flatten_map_toBits {α : Type} (w : Nat) (xs : List α)
    (g : α → Nat) :
    ((xs.map (fun i => toBits w (g i))).flatten).length = xs.length * w := by
  induction xs with
  | nil => simp
  | cons x xs ih =>
    simp only [List.map_cons, List.flatten_cons, List.length_append,
      length_toBits, List.length_cons, ih]
    ring

theorem length_encTail (seq : List Nat) (w v lcp : Nat) (r : NGRecord) :
    (encTail seq w v lcp r).length = (seq.length - lcp) * w + v := by
  simp only [encTail, List.length_append, length_flatten_map_toBits,
    List.length_drop, length_toBits]

theorem length_encFC_le (seq : List Nat) (N w v l : Nat) (prev r : NGRecord)
    (hseqlen : seq.length = N) :
    (encFC seq N w v l prev r).length ≤ l + N * w + v := by
  rw [encFC]
  by_cases h0 : lcpOf seq prev.1 r.1 = 0
  · simp only [if_pos h0, List.length_append, length_toBits, length_encExplicit]
    omega
  · simp only [if_neg h0, List.length_append, length_toBits, length_encTail,
      hseqlen]
    have : (N - lcpOf seq prev.1 r.1) * w ≤ N * w :=
      Nat.mul_le_mul_right w (Nat.sub_le _ _)
    omega

theorem encBlockR_singleton (seq : List Nat) (N w v l : Nat) (r : NGRecord) :
    encBlockR seq N w v l [r] = encExplicit N w v r := by
  simp [encBlockR, encFCs]

theorem encFCs_append (seq : List Nat) (N w v l : Nat) :
    ∀ (xs ys : List NGRecord) (a : NGRecord),
      encFCs seq N w v l a (xs ++ ys)
        = encFCs seq N w v l a xs ++ encFCs seq N w v l (xs.getLastD a) ys := by
  intro xs
  induction xs with
  | nil => intro ys a; simp [encFCs]
  | cons x xs ih =>
    intro ys a
    show encFC seq N w v l a x ++ encFCs seq N w v l x (xs ++ ys) = _
    rw [ih ys x, List.getLastD_cons]
    simp only [encFCs, List.append_assoc]

theorem encBlockR_snoc (seq : List Nat) (N w v l : Nat)
    (cur : List NGRecord) (r : NGRecord) (hcur : cur ≠ []) :
    encBlockR seq N w v l (cur ++ [r])
      = encBlockR seq N w v l cur ++
        encFC seq N w v l (cur.getLastD ([], 0)) r := by
  match cur with
  | [] => exact absurd rfl hcur
  | c0 :: ct =>
    simp only [List.cons_append, encBlockR, encFCs_append, List.getLastD_cons,
      List.append_assoc, encFCs, List.append_nil]

/-! ### The writer loop invariant: output is mkBlocks of a partition -/

theorem writeLoop_spec (seq : List Nat) (N w v l maxRec blockBits blockBytes n : Nat)
    (hmax : maxRec = l + N * w + v) (hfit0 : maxRec ≤ blockBits)
    (hseqlen : seq.length = N) :
    ∀ (rs cur : List NGRecord) (acc : List WB) (enc wr : Nat),
      cur ≠ [] → wr ≤ enc → enc + rs.length < n →
      (encBlockR seq N w v l cur).length ≤ blockBits →
      (∀ k, 1 ≤ k → k < cur.length →
        (encBlockR seq N w v l (cur.take k)).length + maxRec ≤ blockBits) →
      ∃ Ps : List (List NGRecord),
        writeLoop seq N w v l maxRec blockBits blockBytes n rs
            (cur.getLastD ([], 0)) (encBlockR seq N w v l cur) cur.length enc wr
            acc
          = acc ++ mkBlocks seq N w v l blockBytes Ps ∧
        Ps.flatten = cur ++ rs ∧
        (∀ p ∈ Ps, p ≠ []) ∧
        (∀ p ∈ Ps, (encBlockR seq N w v l p).length ≤ blockBits) ∧
        (∀ pre p post, Ps = pre ++ p :: post → post ≠ [] →
          blockBits - (encBlockR seq N w v l p).length < maxRec) ∧
        (∀ p ∈ Ps, ∀ k, 1 ≤ k → k < p.length →
          (encBlockR seq N w v l (p.take k)).length + maxRec ≤ blockBits) := by
  intro rs
  induction rs with
  | nil =>
    intro cur acc enc wr hcur hwr henc hfit hks
    have hwrn : ¬ (wr = n) := by simp at henc; omega
    refine ⟨[cur], ?_, by simp, ?_, ?_, ?_, ?_⟩
    · simp only [writeLoop, if_neg hwrn, mkBlocks]
    · intro p hp
      rw [List.mem_singleton.1 hp]
      exact hcur
    · intro p hp
      rw [List.mem_singleton.1 hp]
      exact hfit
    · intro pre p post heq hpost
      cases pre with
      | nil =>
        simp only [List.nil_append, List.cons.injEq] at heq
        exact absurd heq.2.symm hpost
      | cons a t =>
        simp only [List.cons_append, List.cons.injEq] at heq
        exact absurd heq.2.symm (List.append_ne_nil_of_right_ne_nil t
          (List.cons_ne_nil p post))
    · intro p hp
      rw [List.mem_singleton.1 hp]
      exact hks
  | cons r rs' ih =>
    intro cur acc enc wr hcur hwr henc hfit hks
    have henc' : (enc + 1) + rs'.length < n := by simp at henc; omega
    by_cases hfl : blockBits - (encBlockR seq N w v l cur).length < maxRec
    · -- the worst-case check fires: close the block, open a new one
      have hstep : writeLoop seq N w v l maxRec blockBits blockBytes n
            (r :: rs') (cur.getLastD ([], 0)) (encBlockR seq N w v l cur)
            cur.length enc wr acc
          = writeLoop seq N w v l maxRec blockBits blockBytes n rs' r
            (encExplicit N w v r) 1 (enc + 1) enc
            (acc ++ [⟨cur.length, encBlockR seq N w v l cur, blockBytes⟩]) := by
        simp only [writeLoop, if_pos hfl]
      obtain ⟨Ps', h1, h2, h3, h4, h5, h6⟩ := ih [r]
        (acc ++ [⟨cur.length, encBlockR seq N w v l cur, blockBytes⟩])
        (enc + 1) enc (by simp) (by omega) henc'
        (by rw [encBlockR_singleton, length_encExplicit]; omega)
        (by intro k hk1 hk2; simp at hk2; omega)
      rw [encBlockR_singleton] at h1
      have hPs'ne : Ps' ≠ [] := by
        intro h
        rw [h] at h2
        simp at h2
      obtain ⟨q, t, rfl⟩ := List.exists_cons_of_ne_nil hPs'ne
      refine ⟨cur :: q :: t, ?_, ?_, ?_, ?_, ?_, ?_⟩
      · rw [hstep]
        have hmk : mkBlocks seq N w v l blockBytes (cur :: q :: t)
            = ⟨cur.length, encBlockR seq N w v l cur, blockBytes⟩ ::
              mkBlocks seq N w v l blockBytes (q :: t) := rfl
        rw [hmk]
        rw [List.append_assoc] at h1
        exact h1
      · simp only [List.flatten_cons, h2]
        rfl
      · intro p hp
        rcases List.mem_cons.1 hp with h | h
        · rw [h]; exact hcur
        · exact h3 p h
      · intro p hp
        rcases List.mem_cons.1 hp with h | h
        · rw [h]; exact hfit
        · exact h4 p h
      · intro pre p post heq hpost
        cases pre with
        | nil =>
          simp only [List.nil_append, List.cons.injEq] at heq
          rw [← heq.1]
          exact hfl
        | cons a t2 =>
          simp only [List.cons_append, List.cons.injEq] at heq
          exact h5 t2 p post heq.2 hpost
      · intro p hp
        rcases List.mem_cons.1 hp with h | h
        · rw [h]; exact hks
        · exact h6 p h
    · -- append to the current block
      have hencfc : (encFC seq N w v l (cur.getLastD ([], 0)) r).length ≤ maxRec := by
        rw [hmax]
        exact length_encFC_le seq N w v l _ r hseqlen
      have hle : (encBlockR seq N w v l cur).length + maxRec ≤ blockBits := by
        omega
      have hstep : writeLoop seq N w v l maxRec blockBits blockBytes n
            (r :: rs') (cur.getLastD ([], 0)) (encBlockR seq N w v l cur)
            cur.length enc wr acc
          = writeLoop seq N w v l maxRec blockBits blockBytes n rs' r
            (encBlockR seq N w v l cur ++
              encFC seq N w v l (cur.getLastD ([], 0)) r)
            (cur.length + 1) (enc + 1) wr acc := by
        simp only [writeLoop, if_neg hfl]
      have hsnoc := encBlockR_snoc seq N w v l cur r hcur
      obtain ⟨Ps', h1, h2, h3, h4, h5, h6⟩ := ih (cur ++ [r]) acc (enc + 1) wr
        (by simp) (by omega) henc'
        (by rw [hsnoc, List.length_append]; omega)
        (by
          intro k hk1 hk2
          simp only [List.length_append, List.length_cons, List.length_nil] at hk2
          by_cases hkc : k < cur.length
          · rw [List.take_append_eq_append_take,
              Nat.sub_eq_zero_of_le (le_of_lt hkc), List.take_zero,
              List.append_nil]
            exact hks k hk1 hkc
          · have hk : k = cur.length := by omega
            rw [hk, List.take_left]
            exact hle)
      refine ⟨Ps', ?_, ?_, h3, h4, h5, h6⟩
      · have hlast : (cur ++ [r]).getLastD ([], 0) = r :=
          List.getLastD_concat _ _ _
        have hlen2 : (cur ++ [r]).length = cur.length + 1 := by simp
        rw [hlast, hlen2, hsnoc] at h1
        rw [hstep]
        exact h1
      · rw [h2]
        simp

/-! ### Decoding all emitted blocks -/

theorem padTo_eq_append (m : Nat) (s : List Bool) (h : s.length ≤ m) :
    padTo m s = s ++ List.replicate (m - s.length) false := by
  rw [padTo, List.take_of_length_le h]

theorem chain'_of_mem_flatten {α : Type} (R : α → α → Prop) :
    ∀ (Ps : List (List α)), List.Chain' R Ps.flatten →
      ∀ p ∈ Ps, List.Chain' R p := by
  intro Ps
  induction Ps with
  | nil => intro _ p hp; cases hp
  | cons q t ih =>
    intro hch p hp
    rw [List.flatten_cons, List.chain'_append] at hch
    rcases List.mem_cons.1 hp with h | h
    · rw [h]; exact hch.1
    · exact ih hch.2.1 p h

theorem decodeRun_mkBlocks (seq : List Nat) (N w v l blockBytes : Nat)
    (hseq : seq.Perm (List.range N)) (hN : N < 2 ^ l) :
    ∀ Ps : List (List NGRecord),
      (∀ p ∈ Ps, p ≠ []) →
      (∀ p ∈ Ps, List.Chain' (fun a b => compareSeq seq a.1 b.1 < 0) p) →
      (∀ p ∈ Ps, ∀ r ∈ p,
        r.1.length = N ∧ (∀ x ∈ r.1, x < 2 ^ w) ∧ r.2 < 2 ^ v) →
      (∀ p ∈ Ps, (encBlockR seq N w v l p).length ≤ 8 * blockBytes) →
      decodeRun seq N w v l (mkBlocks seq N w v l blockBytes Ps) = Ps.flatten := by
  intro Ps
  induction Ps with
  | nil => intro _ _ _ _; rfl
  | cons p Ps ih =>
    intro hne hch hb hfit
    cases Ps with
    | nil =>
      have hlen : (encBlockR seq N w v l p).length ≤
          8 * (((encBlockR seq N w v l p).length + 7) / 8) := by omega
      simp only [mkBlocks, decodeRun, List.map_cons, List.map_nil,
        List.flatten_cons, List.flatten_nil, List.append_nil]
      rw [padTo_eq_append _ _ hlen,
        decodeRecords_spec seq N w v l hseq hN p _
          (hne p (List.mem_cons_self _ _))
          (hch p (List.mem_cons_self _ _))
          (hb p (List.mem_cons_self _ _))]
    | cons q t =>
      have hmk : mkBlocks seq N w v l blockBytes (p :: q :: t)
          = ⟨p.length, encBlockR seq N w v l p, blockBytes⟩ ::
            mkBlocks seq N w v l blockBytes (q :: t) := rfl
      rw [hmk]
      have hdec : decodeRun seq N w v l
          (⟨p.length, encBlockR seq N w v l p, blockBytes⟩ ::
            mkBlocks seq N w v l blockBytes (q :: t))
          = (decodeRecords seq N w v l p.length
              (padTo (8 * blockBytes) (encBlockR seq N w v l p))).1 ++
            decodeRun seq N w v l (mkBlocks seq N w v l blockBytes (q :: t)) := by
        simp [decodeRun]
      rw [hdec]
      rw [padTo_eq_append _ _ (hfit p (List.mem_cons_self _ _)),
        decodeRecords_spec seq N w v l hseq hN p _
          (hne p (List.mem_cons_self _ _))
          (hch p (List.mem_cons_self _ _))
          (hb p (List.mem_cons_self _ _))]
      rw [ih (fun x hx => hne x (List.mem_cons_of_mem _ hx))
        (fun x hx => hch x (List.mem_cons_of_mem _ hx))
        (fun x hx => hb x (List.mem_cons_of_mem _ hx))
        (fun x hx => hfit x (List.mem_cons_of_mem _ hx))]
      rfl

/-! ### write_block in terms of a block partition of the run -/

theorem write_block_spec (seq : List Nat) (N blockBytes maxW maxC : Nat)
    (L : List NGRecord) (hseqlen : seq.length = N) (hne : L ≠ [])
    (hfit0 : ceil_log2 (N + 1) + N * ceil_log2 (maxW + 1) +
      ceil_log2 (maxC + 1) ≤ 8 * blockBytes) :
    ∃ Ps : List (List NGRecord),
      write_block seq N blockBytes maxW maxC L.length L
        = some (mkBlocks seq N (ceil_log2 (maxW + 1)) (ceil_log2 (maxC + 1))
            (ceil_log2 (N + 1)) blockBytes Ps) ∧
      Ps.flatten = L ∧
      (∀ p ∈ Ps, p ≠ []) ∧
      (∀ p ∈ Ps, (encBlockR seq N (ceil_log2 (maxW + 1)) (ceil_log2 (maxC + 1))
        (ceil_log2 (N + 1)) p).length ≤ 8 * blockBytes) ∧
      (∀ pre p post, Ps = pre ++ p :: post → post ≠ [] →
        8 * blockBytes - (encBlockR seq N (ceil_log2 (maxW + 1))
          (ceil_log2 (maxC + 1)) (ceil_log2 (N + 1)) p).length
          < ceil_log2 (N + 1) + N * ceil_log2 (maxW + 1) +
            ceil_log2 (maxC + 1)) ∧
      (∀ p ∈ Ps, ∀ k, 1 ≤ k → k < p.length →
        (encBlockR seq N (ceil_log2 (maxW + 1)) (ceil_log2 (maxC + 1))
          (ceil_log2 (N + 1)) (p.take k)).length +
          (ceil_log2 (N + 1) + N * ceil_log2 (maxW + 1) +
            ceil_log2 (maxC + 1)) ≤ 8 * blockBytes) := by
  match L, hne with
  | r0 :: rs, _ =>
    obtain ⟨Ps, h1, h2, h3, h4, h5, h6⟩ := writeLoop_spec seq N
      (ceil_log2 (maxW + 1)) (ceil_log2 (maxC + 1)) (ceil_log2 (N + 1))
      (ceil_log2 (N + 1) + N * ceil_log2 (maxW + 1) + ceil_log2 (maxC + 1))
      (8 * blockBytes) blockBytes (r0 :: rs).length rfl hfit0 hseqlen
      rs [r0] [] 0 0 (by simp) (by omega) (by simp)
      (by rw [encBlockR_singleton, length_encExplicit]; omega)
      (by intro k hk1 hk2; simp at hk2; omega)
    rw [encBlockR_singleton] at h1
    refine ⟨Ps, ?_, h2, h3, h4, h5, h6⟩
    show some _ = _
    rw [show (mkBlocks seq N (ceil_log2 (maxW + 1)) (ceil_log2 (maxC + 1))
        (ceil_log2 (N + 1)) blockBytes Ps)
      = [] ++ mkBlocks seq N (ceil_log2 (maxW + 1)) (ceil_log2 (maxC + 1))
        (ceil_log2 (N + 1)) blockBytes Ps from (List.nil_append _).symm]
    exact congrArg some h1

/-! ## Claim theorems for the codec -/

/-- Claim C1: codec round-trip.  For every non-empty list L of (n-gram,
payload) records, strictly increasing under the comparator, with
statistics bounding the word ids by maxW and the payloads by maxC,
writing L with fc::writer::write_block and decoding the emitted blocks
with fc::ngrams_block's fc_iterator under the same comparator, order N
and widths w, v yields exactly the records of L in the same order. -/
theorem c1_codec_roundtrip (seq : List Nat) (N blockBytes maxW maxC : Nat)
    (L : List NGRecord)
    (hseq : seq.Perm (List.range N))
    (hne : L ≠ [])
    (hsort : List.Chain' (fun a b => compareSeq seq a.1 b.1 < 0) L)
    (hlen : ∀ r ∈ L, r.1.length = N)
    (hw : ∀ r ∈ L, ∀ x ∈ r.1, x ≤ maxW)
    (hv : ∀ r ∈ L, r.2 ≤ maxC)
    (hfit0 : ceil_log2 (N + 1) + N * ceil_log2 (maxW + 1) +
      ceil_log2 (maxC + 1) ≤ 8 * blockBytes) :
    Option.map
      (decodeRun seq N (ceil_log2 (maxW + 1)) (ceil_log2 (maxC + 1))
        (ceil_log2 (N + 1)))
      (write_block seq N blockBytes maxW maxC L.length L) = some L := by
  have hseqlen : seq.length = N := by rw [hseq.length_eq, List.length_range]
  have hN : N < 2 ^ ceil_log2 (N + 1) := lt_two_pow_ceil N N (le_refl N)
  obtain ⟨Ps, h1, h2, h3, h4, h5, h6⟩ :=
    write_block_spec seq N blockBytes maxW maxC L hseqlen hne hfit0
  rw [h1]
  simp only [Option.map_some']
  rw [decodeRun_mkBlocks seq N (ceil_log2 (maxW + 1)) (ceil_log2 (maxC + 1))
    (ceil_log2 (N + 1)) blockBytes hseq hN Ps h3
    (chain'_of_mem_flatten _ Ps (h2.symm ▸ hsort))
    (by
      intro p hp r hr
      have hrL : r ∈ L := h2 ▸ List.mem_flatten.2 ⟨p, hp, hr⟩
      exact ⟨hlen r hrL,
        fun x hx => lt_two_pow_ceil x maxW (hw r hrL x hx),
        lt_two_pow_ceil r.2 maxC (hv r hrL)⟩)
    h4]
  rw [h2]

/-- Concrete instance of the round-trip: order 2 in context order. -/
theorem c1_codec_roundtrip_witness :
    Option.map
      (decodeRun [1, 0] 2 (ceil_log2 (3 + 1)) (ceil_log2 (2 + 1))
        (ceil_log2 (2 + 1)))
      (write_block [1, 0] 2 4 3 2 2 [([1, 2], 1), ([3, 2], 2)])
      = some [([1, 2], 1), ([3, 2], 2)] :=
  c1_codec_roundtrip [1, 0] 2 4 3 2 [([1, 2], 1), ([3, 2], 2)]
    (by decide) (by decide)
    (List.Chain.cons (by decide) List.Chain.nil)
    (by decide) (by decide) (by decide) (by decide)

/-- Claim C8: lcp bound.  In every emitted block, each record after the
first is front-coded with an lcp strictly below the order N against its
in-block predecessor. -/
theorem c8_lcp_bound (seq : List Nat) (N blockBytes maxW maxC : Nat)
    (L : List NGRecord)
    (hseq : seq.Perm (List.range N))
    (hne : L ≠ [])
    (hsort : List.Chain' (fun a b => compareSeq seq a.1 b.1 < 0) L)
    (hfit0 : ceil_log2 (N + 1) + N * ceil_log2 (maxW + 1) +
      ceil_log2 (maxC + 1) ≤ 8 * blockBytes) :
    ∃ Ps : List (List NGRecord),
      write_block seq N blockBytes maxW maxC L.length L
        = some (mkBlocks seq N (ceil_log2 (maxW + 1)) (ceil_log2 (maxC + 1))
            (ceil_log2 (N + 1)) blockBytes Ps) ∧
      Ps.flatten = L ∧
      ∀ p ∈ Ps, List.Chain' (fun a b => lcpOf seq a.1 b.1 < N) p := by
  have hseqlen : seq.length = N := by rw [hseq.length_eq, List.length_range]
  obtain ⟨Ps, h1, h2, h3, h4, h5, h6⟩ :=
    write_block_spec seq N blockBytes maxW maxC L hseqlen hne hfit0
  refine ⟨Ps, h1, h2, ?_⟩
  intro p hp
  have hchp := chain'_of_mem_flatten _ Ps (h2.symm ▸ hsort) p hp
  exact hchp.imp (fun a b hab =>
    hseqlen ▸ lcpOf_lt_of_compare_ne seq a.1 b.1 (ne_of_lt hab))

/-- Concrete instance of the lcp bound. -/
theorem c8_lcp_bound_witness :
    ∃ Ps : List (List NGRecord),
      write_block [1, 0] 2 4 3 2 2 [([1, 2], 1), ([3, 2], 2)]
        = some (mkBlocks [1, 0] 2 (ceil_log2 (3 + 1)) (ceil_log2 (2 + 1))
            (ceil_log2 (2 + 1)) 4 Ps) ∧
      Ps.flatten = [([1, 2], 1), ([3, 2], 2)] ∧
      ∀ p ∈ Ps, List.Chain' (fun a b => lcpOf [1, 0] a.1 b.1 < 2) p :=
  c8_lcp_bound [1, 0] 2 4 3 2 [([1, 2], 1), ([3, 2], 2)]
    (by decide) (by decide)
    (List.Chain.cons (by decide) List.Chain.nil)
    (by decide)

/-- Claim C6: block boundary discipline.  The writer closes a block exactly
when the remaining bits are fewer than the worst-case record size
l + N*w + v; each emitted block's payload begins with a full explicit
record, and the fc_iterator decodes that first record from the first
N*w + v bits of the block's own payload alone. -/
theorem c6_block_boundary (seq : List Nat) (N blockBytes maxW maxC : Nat)
    (L : List NGRecord)
    (hseq : seq.Perm (List.range N))
    (hne : L ≠ [])
    (hsort : List.Chain' (fun a b => compareSeq seq a.1 b.1 < 0) L)
    (hlen : ∀ r ∈ L, r.1.length = N)
    (hw : ∀ r ∈ L, ∀ x ∈ r.1, x ≤ maxW)
    (hv : ∀ r ∈ L, r.2 ≤ maxC)
    (hfit0 : ceil_log2 (N + 1) + N * ceil_log2 (maxW + 1) +
      ceil_log2 (maxC + 1) ≤ 8 * blockBytes) :
    ∃ Ps : List (List NGRecord),
      write_block seq N blockBytes maxW maxC L.length L
        = some (mkBlocks seq N (ceil_log2 (maxW + 1)) (ceil_log2 (maxC + 1))
            (ceil_log2 (N + 1)) blockBytes Ps) ∧
      Ps.flatten = L ∧
      (∀ p ∈ Ps, p ≠ []) ∧
      (∀ pre p post, Ps = pre ++ p :: post → post ≠ [] →
        8 * blockBytes - (encBlockR seq N (ceil_log2 (maxW + 1))
          (ceil_log2 (maxC + 1)) (ceil_log2 (N + 1)) p).length
          < ceil_log2 (N + 1) + N * ceil_log2 (maxW + 1) +
            ceil_log2 (maxC + 1)) ∧
      (∀ p ∈ Ps, ∀ k, 1 ≤ k → k < p.length →
        (encBlockR seq N (ceil_log2 (maxW + 1)) (ceil_log2 (maxC + 1))
          (ceil_log2 (N + 1)) (p.take k)).length +
          (ceil_log2 (N + 1) + N * ceil_log2 (maxW + 1) +
            ceil_log2 (maxC + 1)) ≤ 8 * blockBytes) ∧
      (∀ p ∈ Ps, ∀ r0 tl, p = r0 :: tl →
        (encBlockR seq N (ceil_log2 (maxW + 1)) (ceil_log2 (maxC + 1))
            (ceil_log2 (N + 1)) p).take
            (N * ceil_log2 (maxW + 1) + ceil_log2 (maxC + 1))
          = encExplicit N (ceil_log2 (maxW + 1)) (ceil_log2 (maxC + 1)) r0 ∧
        decodeExplicit N (ceil_log2 (maxW + 1)) (ceil_log2 (maxC + 1))
            (encBlockR seq N (ceil_log2 (maxW + 1)) (ceil_log2 (maxC + 1))
              (ceil_log2 (N + 1)) p)
          = (r0, (encBlockR seq N (ceil_log2 (maxW + 1))
              (ceil_log2 (maxC + 1)) (ceil_log2 (N + 1)) p).drop
              (N * ceil_log2 (maxW + 1) + ceil_log2 (maxC + 1)))) := by
  have hseqlen : seq.length = N := by rw [hseq.length_eq, List.length_range]
  obtain ⟨Ps, h1, h2, h3, h4, h5, h6⟩ :=
    write_block_spec seq N blockBytes maxW maxC L hseqlen hne hfit0
  refine ⟨Ps, h1, h2, h3, h5, h6, ?_⟩
  intro p hp r0 tl hptl
  have hr0L : r0 ∈ L := by
    rw [← h2]
    exact List.mem_flatten.2 ⟨p, hp, by rw [hptl]; exact List.mem_cons_self _ _⟩
  have hb0 : r0.1.length = N := hlen r0 hr0L
  have hw0 : ∀ x ∈ r0.1, x < 2 ^ ceil_log2 (maxW + 1) :=
    fun x hx => lt_two_pow_ceil x maxW (hw r0 hr0L x hx)
  have hv0 : r0.2 < 2 ^ ceil_log2 (maxC + 1) :=
    lt_two_pow_ceil r0.2 maxC (hv r0 hr0L)
  have henc : encBlockR seq N (ceil_log2 (maxW + 1)) (ceil_log2 (maxC + 1))
      (ceil_log2 (N + 1)) p
      = encExplicit N (ceil_log2 (maxW + 1)) (ceil_log2 (maxC + 1)) r0 ++
        encFCs seq N (ceil_log2 (maxW + 1)) (ceil_log2 (maxC + 1))
          (ceil_log2 (N + 1)) r0 tl := by
    rw [hptl]
    rfl
  constructor
  · rw [henc, ← length_encExplicit N (ceil_log2 (maxW + 1))
      (ceil_log2 (maxC + 1)) r0, List.take_left]
  · rw [henc, decodeExplicit_spec N _ _ r0 _ hb0 hw0 hv0,
      ← length_encExplicit N (ceil_log2 (maxW + 1)) (ceil_log2 (maxC + 1)) r0,
      List.drop_left]

/-- Concrete instance of the block boundary discipline. -/
theorem c6_block_boundary_witness :
    ∃ Ps : List (List NGRecord),
      write_block [1, 0] 2 4 3 2 2 [([1, 2], 1), ([3, 2], 2)]
        = some (mkBlocks [1, 0] 2 (ceil_log2 (3 + 1)) (ceil_log2 (2 + 1))
            (ceil_log2 (2 + 1)) 4 Ps) ∧
      Ps.flatten = [([1, 2], 1), ([3, 2], 2)] ∧
      (∀ p ∈ Ps, p ≠ []) ∧
      (∀ pre p post, Ps = pre ++ p :: post → post ≠ [] →
        8 * 4 - (encBlockR [1, 0] 2 (ceil_log2 (3 + 1))
          (ceil_log2 (2 + 1)) (ceil_log2 (2 + 1)) p).length
          < ceil_log2 (2 + 1) + 2 * ceil_log2 (3 + 1) +
            ceil_log2 (2 + 1)) ∧
      (∀ p ∈ Ps, ∀ k, 1 ≤ k → k < p.length →
        (encBlockR [1, 0] 2 (ceil_log2 (3 + 1)) (ceil_log2 (2 + 1))
          (ceil_log2 (2 + 1)) (p.take k)).length +
          (ceil_log2 (2 + 1) + 2 * ceil_log2 (3 + 1) +
            ceil_log2 (2 + 1)) ≤ 8 * 4) ∧
      (∀ p ∈ Ps, ∀ r0 tl, p = r0 :: tl →
        (encBlockR [1, 0] 2 (ceil_log2 (3 + 1)) (ceil_log2 (2 + 1))
            (ceil_log2 (2 + 1)) p).take
            (2 * ceil_log2 (3 + 1) + ceil_log2 (2 + 1))
          = encExplicit 2 (ceil_log2 (3 + 1)) (ceil_log2 (2 + 1)) r0 ∧
        decodeExplicit 2 (ceil_log2 (3 + 1)) (ceil_log2 (2 + 1))
            (encBlockR [1, 0] 2 (ceil_log2 (3 + 1)) (ceil_log2 (2 + 1))
              (ceil_log2 (2 + 1)) p)
          = (r0, (encBlockR [1, 0] 2 (ceil_log2 (3 + 1))
              (ceil_log2 (2 + 1)) (ceil_log2 (2 + 1)) p).drop
              (2 * ceil_log2 (3 + 1) + ceil_log2 (2 + 1)))) :=
  c6_block_boundary [1, 0] 2 4 3 2 [([1, 2], 1), ([3, 2], 2)]
    (by decide) (by decide)
    (List.Chain.cons (by decide) List.Chain.nil)
    (by decide) (by decide) (by decide) (by decide)

/-! ### Byte counts of the emitted blocks -/

theorem mkBlocks_ne_nil (seq : List Nat) (N w v l blockBytes : Nat)
    (Ps : List (List NGRecord)) (h : Ps ≠ []) :
    mkBlocks seq N w v l blockBytes Ps ≠ [] := by
  match Ps with
  | [] => exact absurd rfl h
  | [p] => simp [mkBlocks]
  | p :: q :: t => simp [mkBlocks]

theorem mkBlocks_split (seq : List Nat) (N w v l blockBytes : Nat) :
    ∀ (Ps : List (List NGRecord)) (pre : List WB) (b : WB) (post : List WB),
      mkBlocks seq N w v l blockBytes Ps = pre ++ b :: post →
      (post ≠ [] → b.bytes = blockBytes) ∧
      (post = [] → b.bytes = (b.bits.length + 7) / 8) ∧
      ∃ p ∈ Ps, b.bits = encBlockR seq N w v l p := by
  intro Ps
  induction Ps with
  | nil =>
    intro pre b post h
    simp [mkBlocks] at h
  | cons p Ps ih =>
    intro pre b post h
    cases Ps with
    | nil =>
      cases pre with
      | nil =>
        simp only [mkBlocks, List.nil_append, List.cons.injEq] at h
        obtain ⟨hb, hpost⟩ := h
        refine ⟨fun habs => absurd hpost.symm habs, fun _ => ?_, p, by simp, ?_⟩
        · rw [← hb]
        · rw [← hb]
      | cons x t =>
        simp only [mkBlocks, List.cons_append, List.cons.injEq] at h
        exact absurd h.2.symm (List.append_ne_nil_of_right_ne_nil t
          (List.cons_ne_nil b post))
    | cons q t2 =>
      have hmk : mkBlocks seq N w v l blockBytes (p :: q :: t2)
          = ⟨p.length, encBlockR seq N w v l p, blockBytes⟩ ::
            mkBlocks seq N w v l blockBytes (q :: t2) := rfl
      rw [hmk] at h
      cases pre with
      | nil =>
        simp only [List.nil_append, List.cons.injEq] at h
        obtain ⟨hb, hpost⟩ := h
        refine ⟨fun _ => by rw [← hb], fun habs => ?_, p, by simp, by rw [← hb]⟩
        exact absurd (hpost ▸ habs)
          (mkBlocks_ne_nil seq N w v l blockBytes (q :: t2) (by simp))
      | cons x t =>
        simp only [List.cons_append, List.cons.injEq] at h
        obtain ⟨hconj1, hconj2, pp, hpp, hbits⟩ := ih t b post h.2
        exact ⟨hconj1, hconj2, pp, List.mem_cons_of_mem _ hpp, hbits⟩

/-- Claim C2 (amended): every emitted block except the final one is written
with exactly blockBytes payload bytes; the final block is written with
ceil(bits/8) bytes, and every block's bits fit in blockBytes. -/
theorem c2_final_block_short (seq : List Nat) (N blockBytes maxW maxC : Nat)
    (L : List NGRecord)
    (hseq : seq.Perm (List.range N))
    (hne : L ≠ [])
    (hfit0 : ceil_log2 (N + 1) + N * ceil_log2 (maxW + 1) +
      ceil_log2 (maxC + 1) ≤ 8 * blockBytes) :
    ∃ bs : List WB,
      write_block seq N blockBytes maxW maxC L.length L = some bs ∧
      bs ≠ [] ∧
      ∀ pre b post, bs = pre ++ b :: post →
        b.bits.length ≤ 8 * blockBytes ∧
        (post ≠ [] → b.bytes = blockBytes) ∧
        (post = [] → b.bytes = (b.bits.length + 7) / 8) := by
  have hseqlen : seq.length = N := by rw [hseq.length_eq, List.length_range]
  obtain ⟨Ps, h1, h2, h3, h4, h5, h6⟩ :=
    write_block_spec seq N blockBytes maxW maxC L hseqlen hne hfit0
  refine ⟨_, h1, ?_, ?_⟩
  · apply mkBlocks_ne_nil
    intro habs
    rw [habs] at h2
    exact hne (by simpa using h2.symm)
  · intro pre b post hsplit
    obtain ⟨hc1, hc2, p, hp, hbits⟩ :=
      mkBlocks_split seq N (ceil_log2 (maxW + 1)) (ceil_log2 (maxC + 1))
        (ceil_log2 (N + 1)) blockBytes Ps pre b post hsplit
    exact ⟨by rw [hbits]; exact h4 p hp, hc1, hc2⟩

/-- Concrete instance of the amended block-padding behaviour. -/
theorem c2_final_block_short_witness :
    ∃ bs : List WB,
      write_block [1, 0] 2 4 3 2 2 [([1, 2], 1), ([3, 2], 2)] = some bs ∧
      bs ≠ [] ∧
      ∀ pre b post, bs = pre ++ b :: post →
        b.bits.length ≤ 8 * 4 ∧
        (post ≠ [] → b.bytes = 4) ∧
        (post = [] → b.bytes = (b.bits.length + 7) / 8) :=
  c2_final_block_short [1, 0] 2 4 3 2 [([1, 2], 1), ([3, 2], 2)]
    (by decide) (by decide) (by decide)

/-- Claim C2, as stated, is false on the code: the final block on
end-of-input is not padded to BLOCK_BYTES.  A one-record run at the real
BLOCK_BYTES produces a single block whose payload is written with 1 byte,
not BLOCK_BYTES bytes. -/
theorem c2_counterexample :
    write_block [0] 1 BLOCK_BYTES 0 1 1 [([0], 1)]
      = some [⟨1, [true], 1⟩] ∧
    ¬ (∀ b ∈ [(⟨1, [true], 1⟩ : WB)], b.bytes = BLOCK_BYTES) := by
  constructor
  · rfl
  · decide

/-! ### Record counts of the emitted blocks -/

theorem mkBlocks_counts (seq : List Nat) (N w v l blockBytes : Nat) :
    ∀ Ps : List (List NGRecord),
      (mkBlocks seq N w v l blockBytes Ps).map WB.count = Ps.map List.length := by
  intro Ps
  induction Ps with
  | nil => rfl
  | cons p Ps ih =>
    cases Ps with
    | nil => rfl
    | cons q t =>
      have hmk : mkBlocks seq N w v l blockBytes (p :: q :: t)
          = ⟨p.length, encBlockR seq N w v l p, blockBytes⟩ ::
            mkBlocks seq N w v l blockBytes (q :: t) := rfl
      rw [hmk, List.map_cons, ih]
      rfl

/-- Claim C3 (amended): the bit widths w and v are written once per
write_block call, before the first block; every emitted block then begins
with its own 8-byte record count n followed by its bit-packed payload
bytes, the per-block counts are all at least one and sum to the length of
the run. -/
theorem c3_run_header (seq : List Nat) (N blockBytes maxW maxC : Nat)
    (L : List NGRecord)
    (hseq : seq.Perm (List.range N))
    (hne : L ≠ [])
    (hfit0 : ceil_log2 (N + 1) + N * ceil_log2 (maxW + 1) +
      ceil_log2 (maxC + 1) ≤ 8 * blockBytes) :
    ∃ bs : List WB,
      write_block seq N blockBytes maxW maxC L.length L = some bs ∧
      streamBytes (ceil_log2 (maxW + 1)) (ceil_log2 (maxC + 1)) bs
        = ceil_log2 (maxW + 1) % 256 :: ceil_log2 (maxC + 1) % 256 ::
          (bs.map (fun b =>
            bytesLE 8 b.count ++
              bytesFromBits b.bytes (padTo (8 * b.bytes) b.bits))).flatten ∧
      (bs.map WB.count).sum = L.length ∧
      (∀ b ∈ bs, 1 ≤ b.count) := by
  have hseqlen : seq.length = N := by rw [hseq.length_eq, List.length_range]
  obtain ⟨Ps, h1, h2, h3, h4, h5, h6⟩ :=
    write_block_spec seq N blockBytes maxW maxC L hseqlen hne hfit0
  refine ⟨_, h1, rfl, ?_, ?_⟩
  · rw [mkBlocks_counts]
    rw [← h2, List.length_flatten]
  · intro b hb
    have hcount : b.count ∈ (mkBlocks seq N (ceil_log2 (maxW + 1))
        (ceil_log2 (maxC + 1)) (ceil_log2 (N + 1)) blockBytes Ps).map WB.count :=
      List.mem_map_of_mem WB.count hb
    rw [mkBlocks_counts] at hcount
    obtain ⟨p, hp, hlen⟩ := List.mem_map.1 hcount
    rw [← hlen]
    have := h3 p hp
    cases p with
    | nil => exact absurd rfl this
    | cons x t => simp

/-- Concrete instance of the per-run header layout. -/
theorem c3_run_header_witness :
    ∃ bs : List WB,
      write_block [1, 0] 2 4 3 2 2 [([1, 2], 1), ([3, 2], 2)] = some bs ∧
      streamBytes (ceil_log2 (3 + 1)) (ceil_log2 (2 + 1)) bs
        = ceil_log2 (3 + 1) % 256 :: ceil_log2 (2 + 1) % 256 ::
          (bs.map (fun b =>
            bytesLE 8 b.count ++
              bytesFromBits b.bytes (padTo (8 * b.bytes) b.bits))).flatten ∧
      (bs.map WB.count).sum = 2 ∧
      (∀ b ∈ bs, 1 ≤ b.count) :=
  c3_run_header [1, 0] 2 4 3 2 [([1, 2], 1), ([3, 2], 2)]
    (by decide) (by decide) (by decide)

/-- Claim C3, as stated, is false on the code: on a run spanning two
blocks, only the first block is preceded by the w and v bytes; the second
block begins with its 8-byte record count, so the emitted byte stream
differs from the claimed every-block-self-describing layout. -/
theorem c3_counterexample :
    (write_block [0] 1 2 63 1 3 [([1], 1), ([2], 1), ([3], 1)]).map
        (streamBytes (ceil_log2 (63 + 1)) (ceil_log2 (1 + 1)))
      ≠ (write_block [0] 1 2 63 1 3 [([1], 1), ([2], 1), ([3], 1)]).map
        (streamBytesClaimed (ceil_log2 (63 + 1)) (ceil_log2 (1 + 1))) := by
  decide

/-! ### Non-empty runs and non-empty blocks -/

theorem writeLoop_counts (seq : List Nat)
    (N w v l maxRec blockBits blockBytes n : Nat) :
    ∀ (rs : List NGRecord) (prev : NGRecord) (buf : List Bool)
      (cnt enc wr : Nat) (acc : List WB),
      1 ≤ cnt → wr ≤ enc → enc + rs.length < n →
      ∃ bs' : List WB,
        writeLoop seq N w v l maxRec blockBits blockBytes n rs prev buf cnt
            enc wr acc
          = acc ++ bs' ∧ bs' ≠ [] ∧ ∀ b ∈ bs', 1 ≤ b.count := by
  intro rs
  induction rs with
  | nil =>
    intro prev buf cnt enc wr acc hcnt hwr henc
    have hwrn : ¬ (wr = n) := by simp at henc; omega
    exact ⟨[⟨cnt, buf, (buf.length + 7) / 8⟩], by simp [writeLoop, hwrn],
      by simp, by simpa using hcnt⟩
  | cons r rs' ih =>
    intro prev buf cnt enc wr acc hcnt hwr henc
    have henc' : (enc + 1) + rs'.length < n := by simp at henc; omega
    by_cases hfl : blockBits - buf.length < maxRec
    · obtain ⟨bs', hb1, hb2, hb3⟩ := ih r (encExplicit N w v r) 1 (enc + 1)
        enc (acc ++ [⟨cnt, buf, blockBytes⟩]) (le_refl 1) (by omega) henc'
      refine ⟨⟨cnt, buf, blockBytes⟩ :: bs', ?_, by simp, ?_⟩
      · simp only [writeLoop, if_pos hfl]
        rw [hb1, List.append_assoc]
        rfl
      · intro b hb
        rcases List.mem_cons.1 hb with h | h
        · rw [h]; exact hcnt
        · exact hb3 b h
    · obtain ⟨bs', hb1, hb2, hb3⟩ := ih r (buf ++ encFC seq N w v l prev r)
        (cnt + 1) (enc + 1) wr acc (by omega) (by omega) henc'
      refine ⟨bs', ?_, hb2, hb3⟩
      simp only [writeLoop, if_neg hfl]
      exact hb1

/-- Claim C10: write_block requires a non-empty input run.  The C++
dereferences *begin before any emptiness check, so begin = end is
undefined behaviour, modelled by the none result; under the precondition
that the run is non-empty the call is well defined, and no emitted block
is ever empty: every save() call writes a record count of at least one. -/
theorem c10_write_block_nonempty (seq : List Nat)
    (N blockBytes maxW maxC : Nat) :
    (∀ n, write_block seq N blockBytes maxW maxC n [] = none) ∧
    (∀ L : List NGRecord, L ≠ [] →
      ∃ bs : List WB,
        write_block seq N blockBytes maxW maxC L.length L = some bs ∧
        bs ≠ [] ∧ ∀ b ∈ bs, 1 ≤ b.count) := by
  constructor
  · intro n
    rfl
  · intro L hne
    match L, hne with
    | r0 :: rs, _ =>
      obtain ⟨bs', hb1, hb2, hb3⟩ := writeLoop_counts seq N
        (ceil_log2 (maxW + 1)) (ceil_log2 (maxC + 1)) (ceil_log2 (N + 1))
        (ceil_log2 (N + 1) + N * ceil_log2 (maxW + 1) + ceil_log2 (maxC + 1))
        (8 * blockBytes) blockBytes (r0 :: rs).length rs r0
        (encExplicit N (ceil_log2 (maxW + 1)) (ceil_log2 (maxC + 1)) r0)
        1 0 0 [] (le_refl 1) (le_refl 0) (by simp)
      refine ⟨bs', ?_, hb2, hb3⟩
      show some _ = _
      rw [show bs' = [] ++ bs' from (List.nil_append bs').symm]
      exact congrArg some hb1

/-- Concrete instances of the empty-run and non-empty-block behaviour. -/
theorem c10_write_block_nonempty_witness :
    write_block [0] 1 4 1 1 0 [] = none ∧
    ∃ bs : List WB,
      write_block [0] 1 4 1 1 1 [([1], 1)] = some bs ∧
      bs ≠ [] ∧ ∀ b ∈ bs, 1 ≤ b.count :=
  ⟨(c10_write_block_nonempty [0] 1 4 1 1).1 0,
    (c10_write_block_nonempty [0] 1 4 1 1).2 [([1], 1)] (by decide)⟩

/-! ## Lemmas for the hash accumulator -/

theorem add_mod_ne_self (start k B : Nat) (hstart : start < B) (hk0 : 0 < k)
    (hkB : k < B) : (start + k) % B ≠ start := by
  intro h
  by_cases hlt : start + k < B
  · rw [Nat.mod_eq_of_lt hlt] at h
    omega
  · have hge : B ≤ start + k := by omega
    rw [Nat.mod_eq_sub_mod hge, Nat.mod_eq_of_lt (by omega)] at h
    omega

theorem mod_succ_step (a B : Nat) (hB : 0 < B) :
    (a % B + 1) % B = (a + 1) % B := by
  conv_rhs => rw [Nat.add_mod]
  by_cases h1 : B = 1
  · subst h1
    simp [Nat.mod_one]
  · rw [Nat.mod_eq_of_lt (show 1 < B by omega)]

theorem exists_add_mod (start e B : Nat) (hstart : start < B) (he : e < B) :
    ∃ j, j < B ∧ (start + j) % B = e := by
  by_cases hle : start ≤ e
  · refine ⟨e - start, by omega, ?_⟩
    have h : start + (e - start) = e := by omega
    rw [h, Nat.mod_eq_of_lt he]
  · refine ⟨B - start + e, by omega, ?_⟩
    have h : start + (B - start + e) = B + e := by omega
    rw [h, Nat.add_mod_left, Nat.mod_eq_of_lt he]

theorem countP_set_step :
    ∀ (l : List Nat) (i a : Nat), i < l.length →
      l.getD i invalid_ngram_id = invalid_ngram_id → a ≠ invalid_ngram_id →
      (l.set i a).countP (fun e => decide (e ≠ invalid_ngram_id))
        = l.countP (fun e => decide (e ≠ invalid_ngram_id)) + 1 := by
  intro l
  induction l with
  | nil => intro i a hi _ _; simp at hi
  | cons x t ih =>
    intro i a hi hold hpa
    cases i with
    | zero =>
      have hx : x = invalid_ngram_id := by simpa using hold
      simp [List.countP_cons, hx, hpa]
    | succ i =>
      have hold' : t.getD i invalid_ngram_id = invalid_ngram_id := by
        simpa using hold
      have hi' : i < t.length := by simpa using hi
      simp only [List.set_cons_succ, List.countP_cons, ih i a hi' hold' hpa]
      omega

theorem exists_empty_of_countP_lt (data : List Nat)
    (h : data.countP (fun e => decide (e ≠ invalid_ngram_id)) < data.length) :
    ∃ b, b < data.length ∧ data.getD b invalid_ngram_id = invalid_ngram_id := by
  by_contra habs
  push_neg at habs
  have hall : ∀ e ∈ data, e ≠ invalid_ngram_id := by
    intro e he
    obtain ⟨b, hb, hbe⟩ := List.getElem_of_mem he
    have := habs b hb
    rw [List.getD_eq_getElem _ _ hb, hbe] at this
    exact this
  have hc : data.countP (fun e => decide (e ≠ invalid_ngram_id))
      = data.length :=
    List.countP_eq_length.2 (fun e he => decide_eq_true (hall e he))
  omega

/-! ### The probe walk: full table, successful find, fresh insert -/

theorem probeLoop_full (st : HashBlock) (key : List Nat) (start : Nat)
    (hfull : ∀ e ∈ st.data, e ≠ invalid_ngram_id)
    (hvalid : ∀ e ∈ st.data, e = invalid_ngram_id ∨ e < st.records.length)
    (hnomatch : ∀ rc ∈ st.records, rc.1 ≠ key) :
    ∀ fuel it, it < st.data.length →
      probeLoop st key start it fuel = (st, invalid_ngram_id, false) := by
  intro fuel
  induction fuel with
  | zero => intro it _; rfl
  | succ fuel ih =>
    intro it hit
    have hmem : st.data.getD it invalid_ngram_id ∈ st.data := by
      rw [List.getD_eq_getElem _ _ hit]
      exact List.getElem_mem hit
    have hocc : st.data.getD it invalid_ngram_id ≠ invalid_ngram_id :=
      hfull _ hmem
    have hid : st.data.getD it invalid_ngram_id < st.records.length :=
      (hvalid _ hmem).resolve_left hocc
    have hne : (st.records.getD (st.data.getD it invalid_ngram_id)
        ([], 0)).1 ≠ key := by
      have hm2 : st.records.getD (st.data.getD it invalid_ngram_id) ([], 0)
          ∈ st.records := by
        rw [List.getD_eq_getElem _ _ hid]
        exact List.getElem_mem hid
      exact hnomatch _ hm2
    simp only [probeLoop, if_pos hocc, if_neg hne]
    by_cases hwrap : (it + 1) % st.data.length = start
    · rw [if_pos hwrap]
    · rw [if_neg hwrap]
      exact ih _ (Nat.mod_lt _ (by omega))

/-- Claim C7: table-full failure is detected and atomic.  When every bucket
is occupied and no stored n-gram equals the key, the probe walk wraps back
to its starting bucket and the call returns the sentinel id with false,
leaving the accumulator (record store, payloads and size) unchanged. -/
theorem c7_table_full_atomic (st : HashBlock) (key : List Nat) (hint : Nat)
    (h0 : 0 < st.data.length)
    (hvalid : ∀ e ∈ st.data, e = invalid_ngram_id ∨ e < st.records.length)
    (hfull : ∀ e ∈ st.data, e ≠ invalid_ngram_id)
    (hnomatch : ∀ rc ∈ st.records, rc.1 ≠ key) :
    find_or_insert st key hint = (st, invalid_ngram_id, false) :=
  probeLoop_full st key (hint % st.data.length) hfull hvalid hnomatch
    st.data.length (hint % st.data.length) (Nat.mod_lt _ h0)

/-- Concrete instance of the table-full failure. -/
theorem c7_table_full_atomic_witness :
    find_or_insert ⟨[0, 1], [([5], 1), ([6], 1)]⟩ [7] 0
      = (⟨[0, 1], [([5], 1), ([6], 1)]⟩, invalid_ngram_id, false) :=
  c7_table_full_atomic ⟨[0, 1], [([5], 1), ([6], 1)]⟩ [7] 0
    (by decide) (by decide) (by decide) (by decide)

theorem probeLoop_finds (st : HashBlock) (key : List Nat) (start : Nat)
    (hstart : start < st.data.length)
    (hvalid : ∀ e ∈ st.data, e = invalid_ngram_id ∨ e < st.records.length)
    (hsmall : st.records.length ≤ invalid_ngram_id) :
    ∀ t fuel s it,
      it = (start + s) % st.data.length →
      s + t < st.data.length →
      t < fuel →
      (∀ j, j < t → st.data.getD ((start + s + j) % st.data.length)
        invalid_ngram_id ≠ invalid_ngram_id) →
      st.data.getD ((start + s + t) % st.data.length) invalid_ngram_id
        < st.records.length →
      (st.records.getD (st.data.getD ((start + s + t) % st.data.length)
        invalid_ngram_id) ([], 0)).1 = key →
      ∃ id, id < st.records.length ∧ (st.records.getD id ([], 0)).1 = key ∧
        probeLoop st key start it fuel = (st, id, true) := by
  intro t
  induction t with
  | zero =>
    intro fuel s it hit hsB hfuel _ htlen htkey
    match fuel, hfuel with
    | fuel + 1, _ =>
      rw [Nat.add_zero] at htlen htkey
      rw [← hit] at htlen htkey
      have hocc : st.data.getD it invalid_ngram_id ≠ invalid_ngram_id := by
        omega
      refine ⟨st.data.getD it invalid_ngram_id, htlen, htkey, ?_⟩
      simp only [probeLoop, if_pos hocc, if_pos htkey]
  | succ t ih =>
    intro fuel s it hit hsB hfuel hpath htlen htkey
    match fuel, hfuel with
    | fuel + 1, _ =>
      have hocc : st.data.getD it invalid_ngram_id ≠ invalid_ngram_id := by
        have := hpath 0 (by omega)
        rwa [Nat.add_zero, ← hit] at this
      by_cases hm : (st.records.getD (st.data.getD it invalid_ngram_id)
          ([], 0)).1 = key
      · have hmemd : st.data.getD it invalid_ngram_id ∈ st.data := by
          have hitB : it < st.data.length := by
            rw [hit]; exact Nat.mod_lt _ (by omega)
          rw [List.getD_eq_getElem _ _ hitB]
          exact List.getElem_mem hitB
        have hid : st.data.getD it invalid_ngram_id < st.records.length :=
          (hvalid _ hmemd).resolve_left hocc
        refine ⟨st.data.getD it invalid_ngram_id, hid, hm, ?_⟩
        simp only [probeLoop, if_pos hocc, if_pos hm]
      · have hstep : (it + 1) % st.data.length
            = (start + (s + 1)) % st.data.length := by
          rw [hit, mod_succ_step _ _ (by omega)]
          congr 1
        have hnowrap : (it + 1) % st.data.length ≠ start := by
          rw [hstep]
          exact add_mod_ne_self start (s + 1) st.data.length hstart
            (by omega) (by omega)
        have hrec := ih fuel (s + 1) ((it + 1) % st.data.length) hstep
          (by omega) (by omega)
          (by
            intro j hj
            have := hpath (j + 1) (by omega)
            have harith : start + s + (j + 1) = start + (s + 1) + j := by omega
            rwa [harith] at this)
          (by
            have harith : start + s + (t + 1) = start + (s + 1) + t := by omega
            rwa [harith] at htlen)
          (by
            have harith : start + s + (t + 1) = start + (s + 1) + t := by omega
            rwa [harith] at htkey)
        obtain ⟨id, hid1, hid2, hid3⟩ := hrec
        refine ⟨id, hid1, hid2, ?_⟩
        simp only [probeLoop, if_pos hocc, if_neg hm, if_neg hnowrap]
        exact hid3

theorem probeLoop_inserts (st : HashBlock) (key : List Nat) (start : Nat)
    (hstart : start < st.data.length)
    (hvalid : ∀ e ∈ st.data, e = invalid_ngram_id ∨ e < st.records.length)
    (hnomatch : ∀ rc ∈ st.records, rc.1 ≠ key) :
    ∀ t fuel s it,
      it = (start + s) % st.data.length →
      s + t < st.data.length →
      t < fuel →
      (∀ j, j < t → st.data.getD ((start + s + j) % st.data.length)
        invalid_ngram_id ≠ invalid_ngram_id) →
      st.data.getD ((start + s + t) % st.data.length) invalid_ngram_id
        = invalid_ngram_id →
      probeLoop st key start it fuel
        = (⟨st.data.set ((start + s + t) % st.data.length) st.records.length,
            st.records ++ [(key, 1)]⟩, st.records.length, false) := by
  intro t
  induction t with
  | zero =>
    intro fuel s it hit hsB hfuel _ htgt
    match fuel, hfuel with
    | fuel + 1, _ =>
      rw [Nat.add_zero] at htgt
      have hemp : ¬ (st.data.getD it invalid_ngram_id ≠ invalid_ngram_id) := by
        rw [hit]
        simpa using htgt
      simp only [probeLoop, if_neg hemp]
      rw [Nat.add_zero, ← hit]
  | succ t ih =>
    intro fuel s it hit hsB hfuel hpath htgt
    match fuel, hfuel with
    | fuel + 1, _ =>
      have hocc : st.data.getD it invalid_ngram_id ≠ invalid_ngram_id := by
        have := hpath 0 (by omega)
        rwa [Nat.add_zero, ← hit] at this
      have hitB : it < st.data.length := by
        rw [hit]; exact Nat.mod_lt _ (by omega)
      have hmemd : st.data.getD it invalid_ngram_id ∈ st.data := by
        rw [List.getD_eq_getElem _ _ hitB]
        exact List.getElem_mem hitB
      have hid : st.data.getD it invalid_ngram_id < st.records.length :=
        (hvalid _ hmemd).resolve_left hocc
      have hm : (st.records.getD (st.data.getD it invalid_ngram_id)
          ([], 0)).1 ≠ key := by
        have hm2 : st.records.getD (st.data.getD it invalid_ngram_id) ([], 0)
            ∈ st.records := by
          rw [List.getD_eq_getElem _ _ hid]
          exact List.getElem_mem hid
        exact hnomatch _ hm2
      have hstep : (it + 1) % st.data.length
          = (start + (s + 1)) % st.data.length := by
        rw [hit, mod_succ_step _ _ (by omega)]
        congr 1
      have hnowrap : (it + 1) % st.data.length ≠ start := by
        rw [hstep]
        exact add_mod_ne_self start (s + 1) st.data.length hstart
          (by omega) (by omega)
      have hrec := ih fuel (s + 1) ((it + 1) % st.data.length) hstep
        (by omega) (by omega)
        (by
          intro j hj
          have := hpath (j + 1) (by omega)
          have harith : start + s + (j + 1) = start + (s + 1) + j := by omega
          rwa [harith] at this)
        (by
          have harith : start + s + (t + 1) = start + (s + 1) + t := by omega
          rwa [harith] at htgt)
      simp only [probeLoop, if_pos hocc, if_neg hm, if_neg hnowrap]
      have harith : start + s + (t + 1) = start + (s + 1) + t := by omega
      rw [harith]
      exact hrec

theorem pairwise_keys_getD (records : List NGRecord)
    (hdist : List.Pairwise (fun a b => a.1 ≠ b.1) records)
    (i j : Nat) (hi : i < records.length) (hj : j < records.length)
    (hk : (records.getD i ([], 0)).1 = (records.getD j ([], 0)).1) : i = j := by
  by_contra hne
  rw [List.getD_eq_getElem _ _ hi, List.getD_eq_getElem _ _ hj] at hk
  have hp := List.pairwise_iff_getElem.1 hdist
  rcases Nat.lt_or_ge i j with h | h
  · exact hp i j hi hj h hk
  · exact hp j i hj hi (by omega) hk.symm

theorem find_or_insert_finds (h : List Nat → Nat) (st : HashBlock)
    (key : List Nat) (i0 : Nat) (hinv : AccInv h st)
    (hi0 : i0 < st.records.length)
    (hkey : (st.records.getD i0 ([], 0)).1 = key) :
    find_or_insert st key (h key) = (st, i0, true) := by
  obtain ⟨h0, hB, hvalid, hcount, hreach, hdist⟩ := hinv
  have hsmall : st.records.length ≤ invalid_ngram_id := by
    have := List.countP_le_length
      (fun e => decide (e ≠ invalid_ngram_id)) (l := st.data)
    omega
  obtain ⟨t, htB, htgt, hpath⟩ := hreach i0 hi0
  rw [hkey] at htgt hpath
  have hstartB : h key % st.data.length < st.data.length := Nat.mod_lt _ h0
  have hpath' : ∀ j, j < t →
      st.data.getD ((h key % st.data.length + 0 + j) % st.data.length)
        invalid_ngram_id ≠ invalid_ngram_id := by
    intro j hj
    have hh := hpath j hj
    have harith : h key % st.data.length + 0 + j
        = h key % st.data.length + j := by omega
    rwa [harith]
  have harith2 : h key % st.data.length + 0 + t
      = h key % st.data.length + t := by omega
  obtain ⟨id, hid1, hid2, hid3⟩ := probeLoop_finds st key
    (h key % st.data.length) hstartB hvalid hsmall t st.data.length 0
    (h key % st.data.length)
    (by rw [Nat.add_zero]; exact (Nat.mod_eq_of_lt hstartB).symm)
    (by omega) htB hpath'
    (by rw [harith2, htgt]; exact hi0)
    (by rw [harith2, htgt, hkey])
  have hideq : id = i0 :=
    pairwise_keys_getD st.records hdist id i0 hid1 hi0 (by rw [hid2, hkey])
  exact hideq ▸ hid3

theorem find_or_insert_inserts (h : List Nat → Nat) (st : HashBlock)
    (key : List Nat) (hinv : AccInv h st)
    (hnomatch : ∀ rc ∈ st.records, rc.1 ≠ key)
    (hempty : ∃ b, b < st.data.length ∧
      st.data.getD b invalid_ngram_id = invalid_ngram_id) :
    ∃ t, t < st.data.length ∧
      st.data.getD ((h key % st.data.length + t) % st.data.length)
        invalid_ngram_id = invalid_ngram_id ∧
      (∀ j, j < t → st.data.getD ((h key % st.data.length + j) %
        st.data.length) invalid_ngram_id ≠ invalid_ngram_id) ∧
      find_or_insert st key (h key)
        = (⟨st.data.set ((h key % st.data.length + t) % st.data.length)
            st.records.length, st.records ++ [(key, 1)]⟩,
          st.records.length, false) := by
  obtain ⟨h0, hB, hvalid, hcount, hreach, hdist⟩ := hinv
  have hstartB : h key % st.data.length < st.data.length := Nat.mod_lt _ h0
  obtain ⟨b, hbB, hbe⟩ := hempty
  obtain ⟨j0, hj0B, hj0e⟩ :=
    exists_add_mod (h key % st.data.length) b st.data.length hstartB hbB
  have hex : ∃ j, st.data.getD ((h key % st.data.length + j) %
      st.data.length) invalid_ngram_id = invalid_ngram_id :=
    ⟨j0, by rw [hj0e]; exact hbe⟩
  have htB : Nat.find hex < st.data.length :=
    lt_of_le_of_lt (Nat.find_min' hex (by rw [hj0e]; exact hbe)) hj0B
  refine ⟨Nat.find hex, htB, Nat.find_spec hex,
    fun j hj => Nat.find_min hex hj, ?_⟩
  have hpath' : ∀ j, j < Nat.find hex →
      st.data.getD ((h key % st.data.length + 0 + j) % st.data.length)
        invalid_ngram_id ≠ invalid_ngram_id := by
    intro j hj
    have hh := Nat.find_min hex hj
    have harith : h key % st.data.length + 0 + j
        = h key % st.data.length + j := by omega
    rwa [harith]
  have harith2 : h key % st.data.length + 0 + Nat.find hex
      = h key % st.data.length + Nat.find hex := by omega
  have hrun := probeLoop_inserts st key (h key % st.data.length) hstartB
    hvalid hnomatch (Nat.find hex) st.data.length 0
    (h key % st.data.length)
    (by rw [Nat.add_zero]; exact (Nat.mod_eq_of_lt hstartB).symm)
    (by omega) htB hpath'
    (by rw [harith2]; exact Nat.find_spec hex)
  rw [harith2] at hrun
  exact hrun

theorem accinv_insert (h : List Nat → Nat) (st : HashBlock) (key : List Nat)
    (t : Nat) (hinv : AccInv h st)
    (htB : t < st.data.length)
    (hbe : st.data.getD ((h key % st.data.length + t) % st.data.length)
      invalid_ngram_id = invalid_ngram_id)
    (hpath : ∀ j, j < t → st.data.getD ((h key % st.data.length + j) %
      st.data.length) invalid_ngram_id ≠ invalid_ngram_id)
    (hnomatch : ∀ rc ∈ st.records, rc.1 ≠ key) :
    AccInv h ⟨st.data.set ((h key % st.data.length + t) % st.data.length)
      st.records.length, st.records ++ [(key, 1)]⟩ := by
  obtain ⟨h0, hB, hvalid, hcount, hreach, hdist⟩ := hinv
  have hlen : st.records.length ≤ invalid_ngram_id := by
    have := List.countP_le_length
      (fun e => decide (e ≠ invalid_ngram_id)) (l := st.data)
    omega
  have hlenlt : st.records.length < invalid_ngram_id := by
    have := List.countP_le_length
      (fun e => decide (e ≠ invalid_ngram_id)) (l := st.data)
    omega
  have hbB : (h key % st.data.length + t) % st.data.length
      < st.data.length := Nat.mod_lt _ (by omega)
  have hsetlen : (st.data.set ((h key % st.data.length + t) %
      st.data.length) st.records.length).length = st.data.length := by
    simp
  have hkeep : ∀ x, x ≠ (h key % st.data.length + t) % st.data.length →
      (st.data.set ((h key % st.data.length + t) % st.data.length)
        st.records.length).getD x invalid_ngram_id
      = st.data.getD x invalid_ngram_id := by
    intro x hx
    exact getD_set_ne _ _ _ _ _ (fun hh => hx hh.symm)
  have hsetb : (st.data.set ((h key % st.data.length + t) % st.data.length)
      st.records.length).getD ((h key % st.data.length + t) %
      st.data.length) invalid_ngram_id = st.records.length :=
    getD_set_self _ _ _ _ hbB
  have hocc_pres : ∀ x, st.data.getD x invalid_ngram_id ≠ invalid_ngram_id →
      (st.data.set ((h key % st.data.length + t) % st.data.length)
        st.records.length).getD x invalid_ngram_id ≠ invalid_ngram_id := by
    intro x hx
    by_cases hxb : x = (h key % st.data.length + t) % st.data.length
    · rw [hxb, hsetb]; omega
    · rw [hkeep x hxb]; exact hx
  have hrecget : ∀ id, id < st.records.length →
      (st.records ++ [(key, 1)]).getD id ([], 0)
        = st.records.getD id ([], 0) := by
    intro id hid
    simp [List.getD, List.getElem?_append_left hid]
  refine ⟨by simpa using h0, by simpa using hB, ?_, ?_, ?_, ?_⟩
  · -- valid ids
    intro e he
    rcases List.mem_or_eq_of_mem_set he with hmem | heq
    · rcases hvalid e hmem with hh | hh
      · exact Or.inl hh
      · refine Or.inr ?_
        simp only [List.length_append, List.length_cons, List.length_nil]
        omega
    · refine Or.inr ?_
      simp only [heq, List.length_append, List.length_cons, List.length_nil]
      omega
  · -- occupied count
    show (st.data.set _ _).countP _ = (st.records ++ [(key, 1)]).length
    rw [countP_set_step st.data _ st.records.length hbB hbe (by omega)]
    simp only [List.length_append, List.length_cons, List.length_nil]
    omega
  · -- reachability
    intro id hid
    simp only [List.length_append, List.length_cons, List.length_nil] at hid
    by_cases hidold : id < st.records.length
    · obtain ⟨t', ht'B, htgt', hpath'⟩ := hreach id hidold
      refine ⟨t', by simpa using ht'B, ?_, ?_⟩
      · show (st.data.set _ _).getD
            ((h ((st.records ++ [(key, 1)]).getD id ([], 0)).1 %
              (st.data.set _ _).length + t') %
              (st.data.set _ _).length) invalid_ngram_id = id
        rw [hsetlen, hrecget id hidold]
        have hne : (h (st.records.getD id ([], 0)).1 % st.data.length + t') %
            st.data.length ≠ (h key % st.data.length + t) % st.data.length := by
          intro hh
          rw [hh, hbe] at htgt'
          omega
        rw [hkeep _ hne]
        exact htgt'
      · intro j hj
        show (st.data.set _ _).getD
            ((h ((st.records ++ [(key, 1)]).getD id ([], 0)).1 %
              (st.data.set _ _).length + j) %
              (st.data.set _ _).length) invalid_ngram_id ≠ invalid_ngram_id
        rw [hsetlen, hrecget id hidold]
        exact hocc_pres _ (hpath' j hj)
    · have hidnew : id = st.records.length := by omega
      subst hidnew
      have hget : (st.records ++ [(key, 1)]).getD st.records.length ([], 0)
          = (key, 1) := by
        have hlt : st.records.length < (st.records ++ [(key, 1)]).length := by
          simp
        rw [List.getD_eq_getElem _ _ hlt]
        exact List.getElem_concat_length _ _ _ rfl hlt
      refine ⟨t, by simpa using htB, ?_, ?_⟩
      · show (st.data.set _ _).getD
            ((h ((st.records ++ [(key, 1)]).getD st.records.length
              ([], 0)).1 % (st.data.set _ _).length + t) %
              (st.data.set _ _).length) invalid_ngram_id = st.records.length
        rw [hsetlen, hget]
        exact hsetb
      · intro j hj
        show (st.data.set _ _).getD
            ((h ((st.records ++ [(key, 1)]).getD st.records.length
              ([], 0)).1 % (st.data.set _ _).length + j) %
              (st.data.set _ _).length) invalid_ngram_id ≠ invalid_ngram_id
        rw [hsetlen, hget]
        exact hocc_pres _ (hpath j hj)
  · -- pairwise distinct keys
    refine List.pairwise_append.2 ⟨hdist, List.pairwise_singleton _ _, ?_⟩
    intro a ha b hb
    have hbk : b = (key, 1) := by simpa using hb
    rw [hbk]
    exact hnomatch a ha

theorem newDistinct_congr (s1 s2 : List (List Nat))
    (hmem : ∀ x, x ∈ s1 ↔ x ∈ s2) :
    ∀ ks, newDistinct s1 ks = newDistinct s2 ks := by
  intro ks
  induction ks generalizing s1 s2 with
  | nil => rfl
  | cons k ks ih =>
    by_cases hk : k ∈ s1
    · rw [newDistinct, if_pos hk, newDistinct, if_pos ((hmem k).1 hk)]
      exact ih s1 s2 hmem
    · rw [newDistinct, if_neg hk, newDistinct,
        if_neg (fun hh => hk ((hmem k).2 hh))]
      refine congrArg _ (ih (k :: s1) (k :: s2) ?_)
      intro x
      simp only [List.mem_cons]
      constructor
      · rintro (hh | hh)
        · exact Or.inl hh
        · exact Or.inr ((hmem x).1 hh)
      · rintro (hh | hh)
        · exact Or.inl hh
        · exact Or.inr ((hmem x).2 hh)

theorem processAll_spec (h : List Nat → Nat) :
    ∀ (ks : List (List Nat)) (st : HashBlock),
      AccInv h st →
      st.records.length +
        (newDistinct (st.records.map Prod.fst) ks).length
        ≤ st.data.length →
      (processAll h st ks).records.map Prod.fst
          = st.records.map Prod.fst ++
            newDistinct (st.records.map Prod.fst) ks ∧
      AccInv h (processAll h st ks) := by
  intro ks
  induction ks with
  | nil =>
    intro st hinv _
    exact ⟨by simp [processAll, newDistinct], hinv⟩
  | cons k ks ih =>
    intro st hinv hbound
    have hstep : processAll h st (k :: ks)
        = processAll h (find_or_insert st k (h k)).1 ks := rfl
    by_cases hk : k ∈ st.records.map Prod.fst
    · -- an equal n-gram is already stored
      obtain ⟨rc, hrc, hfst⟩ := List.mem_map.1 hk
      obtain ⟨i0, hi0len, hi0⟩ := List.getElem_of_mem hrc
      have hkey : (st.records.getD i0 ([], 0)).1 = k := by
        rw [List.getD_eq_getElem _ _ hi0len, hi0, hfst]
      have hfind := find_or_insert_finds h st k i0 hinv hi0len hkey
      rw [hstep, hfind]
      have hnd : newDistinct (st.records.map Prod.fst) (k :: ks)
          = newDistinct (st.records.map Prod.fst) ks := by
        rw [newDistinct, if_pos hk]
      rw [hnd] at hbound ⊢
      exact ih st hinv hbound
    · -- a fresh distinct n-gram
      have hnomatch : ∀ rc ∈ st.records, rc.1 ≠ k := by
        intro rc hrc habs
        exact hk (habs ▸ List.mem_map_of_mem Prod.fst hrc)
      have hnd : newDistinct (st.records.map Prod.fst) (k :: ks)
          = k :: newDistinct (k :: st.records.map Prod.fst) ks := by
        rw [newDistinct, if_neg hk]
      rw [hnd] at hbound
      have hcount := hinv.2.2.2.1
      have hempty : ∃ b, b < st.data.length ∧
          st.data.getD b invalid_ngram_id = invalid_ngram_id := by
        apply exists_empty_of_countP_lt
        rw [hcount]
        simp only [List.length_cons] at hbound
        omega
      obtain ⟨t, htB, hbe, hpath, hrun⟩ :=
        find_or_insert_inserts h st k hinv hnomatch hempty
      have hinv' := accinv_insert h st k t hinv htB hbe hpath hnomatch
      rw [hstep, hrun]
      have hmap' : (st.records ++ [(k, 1)]).map Prod.fst
          = st.records.map Prod.fst ++ [k] := by simp
      have hseen : ∀ x, x ∈ st.records.map Prod.fst ++ [k]
          ↔ x ∈ k :: st.records.map Prod.fst := by
        intro x
        simp only [List.mem_append, List.mem_cons, List.mem_singleton]
        tauto
      have hbound' : (st.records ++ [(k, 1)]).length +
          (newDistinct ((st.records ++ [(k, 1)]).map Prod.fst) ks).length
          ≤ (⟨st.data.set ((h k % st.data.length + t) % st.data.length)
              st.records.length, st.records ++ [(k, 1)]⟩ :
              HashBlock).data.length := by
        show (st.records ++ [(k, 1)]).length + _ ≤ (st.data.set _ _).length
        rw [hmap', newDistinct_congr _ _ hseen ks]
        simp only [List.length_append, List.length_cons, List.length_nil,
          List.length_set]
        simp only [List.length_cons] at hbound
        omega
      obtain ⟨hmap2, hinv2⟩ := ih
        ⟨st.data.set ((h k % st.data.length + t) % st.data.length)
          st.records.length, st.records ++ [(k, 1)]⟩ hinv' hbound'
      refine ⟨?_, hinv2⟩
      rw [hmap2]
      show (st.records ++ [(k, 1)]).map Prod.fst ++
          newDistinct ((st.records ++ [(k, 1)]).map Prod.fst) ks = _
      rw [hmap', newDistinct_congr _ _ hseen ks, hnd, List.append_assoc]
      rfl

/-- Claim C4: the find_or_insert contract.  Under the accumulator
invariant: a call whose key is already stored returns that entry's id with
existed = true and changes nothing; a call with a fresh key and a
reachable free bucket writes the record with payload 1 at the next
monotonic id (the current size) and returns existed = false; consequently,
driving any key sequence into a fresh accumulator leaves exactly the
distinct n-grams in first-insertion order, so size equals the number of
distinct n-grams inserted and the n-gram at id k is the (k+1)-th distinct
insertion. -/
theorem c4_find_or_insert_contract :
    (∀ (h : List Nat → Nat) (st : HashBlock) (key : List Nat) (i0 : Nat),
      AccInv h st → i0 < st.records.length →
      (st.records.getD i0 ([], 0)).1 = key →
      find_or_insert st key (h key) = (st, i0, true)) ∧
    (∀ (h : List Nat → Nat) (st : HashBlock) (key : List Nat),
      AccInv h st → (∀ rc ∈ st.records, rc.1 ≠ key) →
      (∃ b, b < st.data.length ∧
        st.data.getD b invalid_ngram_id = invalid_ngram_id) →
      ∃ t, find_or_insert st key (h key)
        = (⟨st.data.set ((h key % st.data.length + t) % st.data.length)
            st.records.length, st.records ++ [(key, 1)]⟩,
          st.records.length, false)) ∧
    (∀ (h : List Nat → Nat) (B : Nat) (ks : List (List Nat)),
      0 < B → B < invalid_ngram_id →
      (newDistinct [] ks).length ≤ B →
      (processAll h ⟨List.replicate B invalid_ngram_id, []⟩ ks).records.map
        Prod.fst = newDistinct [] ks) := by
  refine ⟨?_, ?_, ?_⟩
  · intro h st key i0 hinv hi0 hkey
    exact find_or_insert_finds h st key i0 hinv hi0 hkey
  · intro h st key hinv hnomatch hempty
    obtain ⟨t, _, _, _, hrun⟩ :=
      find_or_insert_inserts h st key hinv hnomatch hempty
    exact ⟨t, hrun⟩
  · intro h B ks hB0 hBinv hkslen
    have hinv0 : AccInv h ⟨List.replicate B invalid_ngram_id, []⟩ := by
      refine ⟨by simpa using hB0, by simpa using hBinv, ?_, ?_, ?_, ?_⟩
      · intro e he
        exact Or.inl (List.eq_of_mem_replicate he)
      · show (List.replicate B invalid_ngram_id).countP _ = ([] : List NGRecord).length
        rw [List.countP_eq_zero.2 (fun a ha => by
          rw [List.eq_of_mem_replicate ha]
          simp)]
        rfl
      · intro id hid
        simp at hid
      · exact List.Pairwise.nil
    have hbound : ([] : List NGRecord).length +
        (newDistinct (([] : List NGRecord).map Prod.fst) ks).length
        ≤ (List.replicate B invalid_ngram_id).length := by
      simpa using hkslen
    have := (processAll_spec h ks ⟨List.replicate B invalid_ngram_id, []⟩
      hinv0 hbound).1
    simpa using this

/-- The accumulator invariant holds for a concrete one-entry state under
the constant hash. -/
theorem accinv_example :
    AccInv (fun _ => 1) ⟨[invalid_ngram_id, 0], [([5], 1)]⟩ := by
  refine ⟨by decide, by decide, by decide, by decide, ?_, ?_⟩
  · intro id hid
    have hid0 : id = 0 := by
      simp at hid
      omega
    subst hid0
    exact ⟨0, by decide, by decide, fun j hj => absurd hj (Nat.not_lt_zero j)⟩
  · exact List.pairwise_singleton _ _

/-- Concrete instances of the find_or_insert contract: a repeated n-gram,
a fresh insertion, and a driven key sequence with one duplicate. -/
theorem c4_find_or_insert_contract_witness :
    find_or_insert (⟨[invalid_ngram_id, 0], [([5], 1)]⟩ : HashBlock) [5]
        ((fun _ => 1) [5])
      = (⟨[invalid_ngram_id, 0], [([5], 1)]⟩, 0, true) ∧
    (∃ t, find_or_insert (⟨[invalid_ngram_id, 0], [([5], 1)]⟩ : HashBlock)
        [7] ((fun _ => 1) [7])
      = (⟨([invalid_ngram_id, 0] : List Nat).set
          (((fun _ => 1) [7] % ([invalid_ngram_id, 0] : List Nat).length + t)
            % ([invalid_ngram_id, 0] : List Nat).length) 1,
          [([5], 1), ([7], 1)]⟩, 1, false)) ∧
    (processAll (fun _ => 0) ⟨List.replicate 4 invalid_ngram_id, []⟩
      [[1], [2], [1]]).records.map Prod.fst
      = newDistinct [] [[1], [2], [1]] :=
  ⟨c4_find_or_insert_contract.1 (fun _ => 1)
    ⟨[invalid_ngram_id, 0], [([5], 1)]⟩ [5] 0 accinv_example (by decide)
    (by decide),
  c4_find_or_insert_contract.2.1 (fun _ => 1)
    ⟨[invalid_ngram_id, 0], [([5], 1)]⟩ [7] accinv_example (by decide)
    ⟨0, by decide, by decide⟩,
  c4_find_or_insert_contract.2.2 (fun _ => 0) 4 [[1], [2], [1]]
    (by decide) (by decide) (by decide)⟩

/-- Claim C9: failure is reported only through the sentinel id.  The
sentinel is the all-ones 64-bit id 2^64 - 1; for a key that is not stored,
the boolean return value is false whether the call inserts or fails, and
the returned id equals the sentinel exactly when every bucket is occupied,
so only the id comparison distinguishes failure from a fresh insertion. -/
theorem c9_failure_sentinel (h : List Nat → Nat) (st : HashBlock)
    (key : List Nat) (hinv : AccInv h st)
    (hnomatch : ∀ rc ∈ st.records, rc.1 ≠ key) :
    invalid_ngram_id = 2 ^ 64 - 1 ∧
    (find_or_insert st key (h key)).2.2 = false ∧
    ((find_or_insert st key (h key)).2.1 = invalid_ngram_id ↔
      ∀ e ∈ st.data, e ≠ invalid_ngram_id) := by
  have h0 := hinv.1
  have hBinv := hinv.2.1
  have hvalid := hinv.2.2.1
  have hcount := hinv.2.2.2.1
  refine ⟨rfl, ?_⟩
  by_cases hfull : ∀ e ∈ st.data, e ≠ invalid_ngram_id
  · have hrun : find_or_insert st key (h key)
        = (st, invalid_ngram_id, false) :=
      probeLoop_full st key (h key % st.data.length) hfull hvalid hnomatch
        st.data.length (h key % st.data.length) (Nat.mod_lt _ h0)
    rw [hrun]
    exact ⟨rfl, iff_of_true rfl hfull⟩
  · have hempty : ∃ b, b < st.data.length ∧
        st.data.getD b invalid_ngram_id = invalid_ngram_id := by
      push_neg at hfull
      obtain ⟨e, he, hee⟩ := hfull
      obtain ⟨b, hb, hbe⟩ := List.getElem_of_mem he
      exact ⟨b, hb, by rw [List.getD_eq_getElem _ _ hb, hbe, hee]⟩
    obtain ⟨t, _, _, _, hrun⟩ :=
      find_or_insert_inserts h st key hinv hnomatch hempty
    rw [hrun]
    have hsize : st.records.length < invalid_ngram_id := by
      have := List.countP_le_length
        (fun e => decide (e ≠ invalid_ngram_id)) (l := st.data)
      omega
    refine ⟨rfl, ?_⟩
    constructor
    · intro habs
      exact absurd habs (by show st.records.length ≠ invalid_ngram_id; omega)
    · intro habs
      exact absurd habs hfull

/-- Concrete instance of the sentinel-only failure signalling. -/
theorem c9_failure_sentinel_witness :
    invalid_ngram_id = 2 ^ 64 - 1 ∧
    (find_or_insert (⟨[invalid_ngram_id, 0], [([5], 1)]⟩ : HashBlock) [7]
      ((fun _ => 1) [7])).2.2 = false ∧
    ((find_or_insert (⟨[invalid_ngram_id, 0], [([5], 1)]⟩ : HashBlock) [7]
      ((fun _ => 1) [7])).2.1 = invalid_ngram_id ↔
      ∀ e ∈ ([invalid_ngram_id, 0] : List Nat), e ≠ invalid_ngram_id) :=
  c9_failure_sentinel (fun _ => 1) ⟨[invalid_ngram_id, 0], [([5], 1)]⟩ [7]
    accinv_example (by decide)

/-! ## Lemmas for the sorter -/

theorem insertLe_perm (le : Nat → Nat → Bool) (x : Nat) :
    ∀ l : List Nat, (insertLe le x l).Perm (x :: l) := by
  intro l
  induction l with
  | nil => exact List.Perm.refl _
  | cons y ys ih =>
    rw [insertLe]
    by_cases hxy : le x y = true
    · rw [if_pos hxy]
    · rw [if_neg hxy]
      exact (ih.cons y).trans (List.Perm.swap x y ys)

theorem sortLe_perm (le : Nat → Nat → Bool) :
    ∀ l : List Nat, (sortLe le l).Perm l := by
  intro l
  induction l with
  | nil => exact List.Perm.refl _
  | cons x xs ih =>
    exact (insertLe_perm le x (sortLe le xs)).trans (ih.cons x)

theorem chain'_insertLe (le : Nat → Nat → Bool) (x : Nat) :
    ∀ l : List Nat, (∀ b ∈ l, le x b = true ∨ le b x = true) →
      List.Chain' (fun a b => le a b = true) l →
      List.Chain' (fun a b => le a b = true) (insertLe le x l) := by
  intro l
  induction l with
  | nil => intro _ _; exact List.chain'_singleton x
  | cons y ys ih =>
    intro htot hch
    rw [insertLe]
    by_cases hxy : le x y = true
    · rw [if_pos hxy]
      exact List.chain'_cons.2 ⟨hxy, hch⟩
    · rw [if_neg hxy]
      have hyx : le y x = true := by
        rcases htot y (List.mem_cons_self _ _) with hh | hh
        · exact absurd hh hxy
        · exact hh
      have hins := ih (fun b hb => htot b (List.mem_cons_of_mem _ hb))
        hch.tail
      refine List.chain'_cons'.2 ⟨?_, hins⟩
      intro z hz
      cases ys with
      | nil =>
        simp only [insertLe, List.head?_cons, Option.mem_def,
          Option.some.injEq] at hz
        rw [← hz]
        exact hyx
      | cons u us =>
        rw [insertLe] at hz
        by_cases hxu : le x u = true
        · rw [if_pos hxu] at hz
          simp only [List.head?_cons, Option.mem_def, Option.some.injEq] at hz
          rw [← hz]
          exact hyx
        · rw [if_neg hxu] at hz
          simp only [List.head?_cons, Option.mem_def, Option.some.injEq] at hz
          rw [← hz]
          exact (List.chain'_cons.1 hch).1

theorem chain'_sortLe (le : Nat → Nat → Bool) :
    ∀ l : List Nat, (∀ a ∈ l, ∀ b ∈ l, le a b = true ∨ le b a = true) →
      List.Chain' (fun a b => le a b = true) (sortLe le l) := by
  intro l
  induction l with
  | nil => intro _; exact List.chain'_nil
  | cons x xs ih =>
    intro htot
    show List.Chain' _ (insertLe le x (sortLe le xs))
    refine chain'_insertLe le x (sortLe le xs) ?_ ?_
    · intro b hb
      have hbxs : b ∈ xs := (sortLe_perm le xs).mem_iff.1 hb
      exact htot x (List.mem_cons_self _ _) b (List.mem_cons_of_mem _ hbxs)
    · exact ih (fun a ha b hb =>
        htot a (List.mem_cons_of_mem _ ha) b (List.mem_cons_of_mem _ hb))

theorem pairwise_ne_getD (records : List NGRecord)
    (hdist : List.Pairwise (fun a b => a ≠ b) records)
    (i j : Nat) (hi : i < records.length) (hj : j < records.length)
    (hne : i ≠ j) : records.getD i ([], 0) ≠ records.getD j ([], 0) := by
  rw [List.getD_eq_getElem _ _ hi, List.getD_eq_getElem _ _ hj]
  have hp := List.pairwise_iff_getElem.1 hdist
  rcases Nat.lt_or_ge i j with h | h
  · exact hp i j hi hj h
  · exact fun habs => hp j i hj hi (by omega) habs.symm

theorem chain'_combine_mem {α : Type} {R S T : α → α → Prop} :
    ∀ l : List α, (∀ a ∈ l, ∀ b ∈ l, R a b → S a b → T a b) →
      List.Chain' R l → List.Chain' S l → List.Chain' T l := by
  intro l
  induction l with
  | nil => intro _ _ _; exact List.chain'_nil
  | cons x xs ih =>
    intro h hr hs
    cases xs with
    | nil => exact List.chain'_singleton x
    | cons y ys =>
      obtain ⟨hr1, hr2⟩ := List.chain'_cons.1 hr
      obtain ⟨hs1, hs2⟩ := List.chain'_cons.1 hs
      refine List.chain'_cons.2
        ⟨h x (by simp) y (by simp) hr1 hs1,
          ih (fun a ha b hb =>
            h a (List.mem_cons_of_mem _ ha) b (List.mem_cons_of_mem _ hb))
            hr2 hs2⟩

/-- Claim C5: sort totality.  After sorting the index array with a strict
total-order comparator on an accumulator whose entries are pairwise
distinct, iterating the accumulator from begin() to end() visits every
stored entry exactly once (a permutation of the record store), and every
adjacent pair (a, b) in iteration order satisfies cmp a b < 0. -/
theorem c5_sort_totality (records : List NGRecord)
    (cmp : NGRecord → NGRecord → Int)
    (hanti : ∀ a ∈ records, ∀ b ∈ records, cmp a b = -cmp b a)
    (heq : ∀ a ∈ records, ∀ b ∈ records, cmp a b = 0 → a = b)
    (hdist : List.Pairwise (fun a b => a ≠ b) records) :
    (enumerate records (sortIndex records cmp)).Perm records ∧
    List.Chain' (fun a b => cmp a b < 0)
      (enumerate records (sortIndex records cmp)) := by
  have hperm : (sortIndex records cmp).Perm (List.range records.length) :=
    sortLe_perm _ _
  have hmemlt : ∀ i ∈ sortIndex records cmp, i < records.length := by
    intro i hi
    exact List.mem_range.1 (hperm.mem_iff.1 hi)
  have hgetmem : ∀ i, i < records.length →
      records.getD i ([], 0) ∈ records := by
    intro i hi
    rw [List.getD_eq_getElem _ _ hi]
    exact List.getElem_mem hi
  constructor
  · have hmap := hperm.map (fun i => records.getD i ([], 0))
    rw [getD_range_map records ([], 0)] at hmap
    exact hmap
  · have htot : ∀ a ∈ List.range records.length,
        ∀ b ∈ List.range records.length,
        decide (0 ≤ cmp (records.getD b ([], 0)) (records.getD a ([], 0)))
          = true ∨
        decide (0 ≤ cmp (records.getD a ([], 0)) (records.getD b ([], 0)))
          = true := by
      intro a ha b hb
      have haR := hgetmem a (List.mem_range.1 ha)
      have hbR := hgetmem b (List.mem_range.1 hb)
      have h1 := hanti _ hbR _ haR
      by_cases hc : 0 ≤ cmp (records.getD b ([], 0)) (records.getD a ([], 0))
      · exact Or.inl (decide_eq_true hc)
      · exact Or.inr (decide_eq_true (by omega))
    have hchain : List.Chain' (fun i j =>
        decide (0 ≤ cmp (records.getD j ([], 0)) (records.getD i ([], 0)))
          = true) (sortIndex records cmp) :=
      chain'_sortLe _ (List.range records.length) htot
    have hnodup : (sortIndex records cmp).Nodup :=
      hperm.nodup_iff.2 (List.nodup_range _)
    have hnechain : List.Chain' (fun i j => i ≠ j) (sortIndex records cmp) :=
      List.Pairwise.chain' hnodup
    rw [enumerate, List.chain'_map]
    refine chain'_combine_mem (sortIndex records cmp) ?_ hchain hnechain
    intro a ha b hb hle hne
    have haL := hmemlt a ha
    have hbL := hmemlt b hb
    have hle2 : 0 ≤ cmp (records.getD b ([], 0)) (records.getD a ([], 0)) :=
      of_decide_eq_true hle
    have h1 := hanti _ (hgetmem a haL) _ (hgetmem b hbL)
    have hnerec : records.getD a ([], 0) ≠ records.getD b ([], 0) :=
      pairwise_ne_getD records hdist a b haL hbL hne
    have hzero : cmp (records.getD a ([], 0)) (records.getD b ([], 0)) ≠ 0 :=
      fun hz => hnerec (heq _ (hgetmem a haL) _ (hgetmem b hbL) hz)
    omega

/-- Concrete instance of sort totality in context order on two records. -/
theorem c5_sort_totality_witness :
    (enumerate [([2, 9], 5), ([1, 9], 7)]
      (sortIndex [([2, 9], 5), ([1, 9], 7)]
        (fun a b => compareSeq [1, 0] a.1 b.1))).Perm
      [([2, 9], 5), ([1, 9], 7)] ∧
    List.Chain' (fun a b => compareSeq [1, 0] a.1 b.1 < 0)
      (enumerate [([2, 9], 5), ([1, 9], 7)]
        (sortIndex [([2, 9], 5), ([1, 9], 7)]
          (fun a b => compareSeq [1, 0] a.1 b.1))) :=
  c5_sort_totality [([2, 9], 5), ([1, 9], 7)]
    (fun a b => compareSeq [1, 0] a.1 b.1)
    (by decide) (by decide) (by decide)
